import Mathlib

/-!
Verification development for the `guh_quant` trading agent (Rust sources
`src/stocks.rs`, `src/portfolio.rs`, `src/points.rs`, `src/investor.rs`,
`src/main.rs`).

Modelling conventions:
* Rust `f64` amounts (prices, budgets, weights, scores) are modelled as `ℚ`;
  all arithmetic that the program performs on them is exact rational
  arithmetic here.
* Rust `i32`/`u32` quantities are modelled as `ℤ`/`ℕ`.
* Rust `HashMap`s that the code only iterates over or looks up are modelled
  as association lists; `Vec` is `List`.
* File, network and clock effects are passed in as explicit parameters
  (file contents, parse results, the current time).
* Rust `Vec::sort_by` (a stable sort) is modelled by `List.mergeSort`
  (also a stable sort) with the boolean reflection of the comparator.
* Rust `while` loops are modelled by structurally recursive functions with
  an explicit iteration budget; at every call site the budget is chosen so
  that it is provably at least the number of iterations the Rust loop
  performs on the states the program actually constructs.
-/

/-! ## Byte-lexicographic string order (Rust `str::cmp` on ASCII strings) -/

/-- Lexicographic strict order on character lists, mirroring Rust's
byte-lexicographic `Ord` on `str` (identical on ASCII data, which is all the
program compares: tickers and `YYYY-MM` month labels). -/
def lexLtB : List Char → List Char → Bool
  | [], [] => false
  | [], _ :: _ => true
  | _ :: _, [] => false
  | a :: as, b :: bs => if a < b then true else if b < a then false else lexLtB as bs

/-- Strict order on strings used by the monthly-price binary search. -/
def strLtB (a b : String) : Bool := lexLtB a.data b.data

/-- Three-way comparison on strings, mirroring `month.as_str().cmp(target_month)`. -/
def strCmp (a b : String) : Ordering :=
  if strLtB a b then .lt else if strLtB b a then .gt else .eq

theorem lexLtB_irrefl (l : List Char) : lexLtB l l = false := by
  induction l with
  | nil => rfl
  | cons a as ih => simp [lexLtB, ih]

theorem lexLtB_asymm {a b : List Char} (h : lexLtB a b = true) : lexLtB b a = false := by
  induction a generalizing b with
  | nil => cases b with
    | nil => simp [lexLtB] at h
    | cons y ys => simp [lexLtB]
  | cons x xs ih => cases b with
    | nil => simp [lexLtB] at h
    | cons y ys =>
      simp only [lexLtB] at h ⊢
      rcases lt_trichotomy x y with hxy | hxy | hxy
      · simp [hxy, not_lt_of_lt hxy]
      · subst hxy
        simp only [lt_irrefl, if_false] at h ⊢
        exact ih h
      · simp [hxy, not_lt_of_lt hxy] at h

theorem lexLtB_connex {a b : List Char} (h1 : lexLtB a b = false)
    (h2 : lexLtB b a = false) : a = b := by
  induction a generalizing b with
  | nil => cases b with
    | nil => rfl
    | cons y ys => simp [lexLtB] at h1
  | cons x xs ih => cases b with
    | nil => simp [lexLtB] at h2
    | cons y ys =>
      simp only [lexLtB] at h1 h2
      rcases lt_trichotomy x y with hxy | hxy | hxy
      · simp [hxy] at h1
      · subst hxy
        simp only [lt_irrefl, if_false] at h1 h2
        rw [ih h1 h2]
      · simp [hxy] at h2

theorem lexLtB_trans {a b c : List Char} (h1 : lexLtB a b = true)
    (h2 : lexLtB b c = true) : lexLtB a c = true := by
  induction a generalizing b c with
  | nil => cases c with
    | nil =>
      cases b with
      | nil => exact h1
      | cons y ys => simp [lexLtB] at h2
    | cons z zs => simp [lexLtB]
  | cons x xs ih =>
    cases b with
    | nil => simp [lexLtB] at h1
    | cons y ys =>
      cases c with
      | nil => simp [lexLtB] at h2
      | cons z zs =>
        simp only [lexLtB] at h1 h2 ⊢
        rcases lt_trichotomy x y with hxy | hxy | hxy
        · rcases lt_trichotomy y z with hyz | hyz | hyz
          · simp [lt_trans hxy hyz]
          · subst hyz; simp [hxy]
          · simp [hyz, not_lt_of_lt hyz] at h2
        · subst hxy
          rcases lt_trichotomy x z with hxz | hxz | hxz
          · simp [hxz]
          · subst hxz
            simp only [lt_irrefl, if_false] at h1 h2 ⊢
            exact ih h1 h2
          · simp [hxz, not_lt_of_lt hxz] at h2
        · simp [hxy, not_lt_of_lt hxy] at h1

theorem strLtB_irrefl (s : String) : strLtB s s = false := lexLtB_irrefl s.data

theorem strLtB_asymm {a b : String} (h : strLtB a b = true) : strLtB b a = false :=
  lexLtB_asymm h

theorem strLtB_connex {a b : String} (h1 : strLtB a b = false)
    (h2 : strLtB b a = false) : a = b := by
  apply String.ext
  exact lexLtB_connex h1 h2

theorem strLtB_trans {a b c : String} (h1 : strLtB a b = true)
    (h2 : strLtB b c = true) : strLtB a c = true :=
  lexLtB_trans h1 h2

theorem strCmp_eq_lt {a b : String} (h : strLtB a b = true) : strCmp a b = .lt := by
  simp [strCmp, h]

theorem strCmp_eq_gt {a b : String} (h : strLtB b a = true) : strCmp a b = .gt := by
  have hab : strLtB a b = false := strLtB_asymm h
  simp [strCmp, hab, h]

theorem strCmp_eq_eq {a b : String} (h : strCmp a b = .eq) : a = b := by
  by_cases h1 : strLtB a b = true
  · simp [strCmp, h1] at h
  · by_cases h2 : strLtB b a = true
    · simp [strCmp, h1, h2] at h
    · exact strLtB_connex (by simpa using h1) (by simpa using h2)

/-! ## Learning Store (`src/points.rs`) -/

/-- Volatility bucket names (`points.rs` constants `VOL_LOW`/`VOL_MED`/`VOL_HIGH`). -/
def VOL_LOW : String := "low"

/-- Medium volatility bucket name. -/
def VOL_MED : String := "medium"

/-- High volatility bucket name. -/
def VOL_HIGH : String := "high"

/-- Daily multiplicative decay factor (`points.rs` `DAILY_DECAY_FACTOR = 0.6`). -/
def DAILY_DECAY_FACTOR : ℚ := 6/10

/-- `PointsStore` from `points.rs`: ticker -> volatility bucket -> score, plus the
last-update timestamp (seconds since epoch).  The two `HashMap` levels are
modelled as association lists; the `path` field (only used by `save`) is
omitted. -/
structure PointsStore where
  scores : List (String × List (String × ℚ))
  last_updated : Nat
deriving DecidableEq

/-- `PointsStore::get_score`: score for a ticker at a volatility bucket,
`0.0` when either level of the map is missing. -/
def PointsStore.get_score (ps : PointsStore) (ticker vol_bucket : String) : ℚ :=
  match ps.scores.find? (fun e => e.1 = ticker) with
  | none => 0
  | some e =>
    match e.2.find? (fun b => b.1 = vol_bucket) with
    | none => 0
    | some b => b.2

/-- `PointsStore::decay_all`: multiply every score by `factor`, but only when
`factor` lies in the closed interval `[0, 1]` (the Rust guard
`!(0.0..=1.0).contains(&factor)` returns early otherwise). -/
def PointsStore.decay_all (ps : PointsStore) (factor : ℚ) : PointsStore :=
  if 0 ≤ factor ∧ factor ≤ 1 then
    { ps with scores := ps.scores.map (fun e => (e.1, e.2.map (fun b => (b.1, b.2 * factor)))) }
  else ps

/-- The empty store produced by `PointsStore::load` when the file is missing or
unparseable: empty score map, `last_updated` set to the current time. -/
def emptyPointsStore (now : Nat) : PointsStore :=
  { scores := [], last_updated := now }

/-- `PointsStore::load` from `points.rs`.  Effects are passed explicitly:
`fileContent` is the result of `fs::read_to_string` (`none` = read error,
e.g. missing file); `parseStructured` and `parseLegacy` are the two
`serde_json::from_str` attempts (structured `PointsStore` document, then the
legacy ticker->bucket->score map); `powFactor e` stands for
`DAILY_DECAY_FACTOR.powf(e / 86400)` for `e` elapsed seconds (a transcendental
float operation, kept abstract).  The control flow is exactly the source's:
structured parse first (with time-based decay), then the legacy map, then a
fresh empty store. -/
def PointsStore.load (fileContent : Option String)
    (parseStructured : String → Option PointsStore)
    (parseLegacy : String → Option (List (String × List (String × ℚ))))
    (powFactor : Nat → ℚ) (now : Nat) : PointsStore :=
  match fileContent with
  | none => emptyPointsStore now
  | some s =>
    match parseStructured s with
    | some ps =>
      let ps₁ :=
        if 0 < ps.last_updated ∧ ps.last_updated < now then
          ps.decay_all (powFactor (now - ps.last_updated))
        else ps
      { ps₁ with last_updated := now }
    | none =>
      match parseLegacy s with
      | some map => { scores := map, last_updated := now }
      | none => emptyPointsStore now

/-- C6: for every Learning Store state and factors `f1, f2` in `(0, 1]`,
`decay_all` with the combined factor `f1 * f2` yields the same scores as
`decay_all f1` followed by `decay_all f2` (exactly, in the rational model,
hence in particular within any floating tolerance). -/
theorem c6_decay_composition (ps : PointsStore) (f1 f2 : ℚ)
    (h1 : 0 < f1) (h1' : f1 ≤ 1) (h2 : 0 < f2) (h2' : f2 ≤ 1) :
    (ps.decay_all (f1 * f2)).scores = ((ps.decay_all f1).decay_all f2).scores := by
  have hp : 0 ≤ f1 * f2 := le_of_lt (mul_pos h1 h2)
  have hle : f1 * f2 ≤ 1 := mul_le_one₀ h1' (le_of_lt h2) h2'
  simp only [PointsStore.decay_all, if_pos (And.intro hp hle),
    if_pos (And.intro (le_of_lt h1) h1'), if_pos (And.intro (le_of_lt h2) h2'),
    List.map_map]
  apply List.map_congr_left
  intro e _
  simp [Function.comp, List.map_map, mul_assoc]

/-- Concrete instantiation of `c6_decay_composition` at a one-entry store and
factors `1/2`, `1/3`. -/
theorem c6_decay_composition_witness :
    (PointsStore.decay_all ⟨[("AAPL", [("low", 100)])], 7⟩ ((1/2) * (1/3))).scores =
      ((PointsStore.decay_all ⟨[("AAPL", [("low", 100)])], 7⟩ (1/2)).decay_all (1/3)).scores :=
  c6_decay_composition ⟨[("AAPL", [("low", 100)])], 7⟩ (1/2) (1/3)
    (by norm_num) (by norm_num) (by norm_num) (by norm_num)

/-- C10: `PointsStore::load` never fails.  A missing file (read error) yields
the empty store; a file that parses as neither the structured format nor the
legacy map format also yields the empty store; and on the empty store
`get_score` returns `0` for every ticker and bucket. -/
theorem c10_load_never_fails :
    (∀ (pf : String → Option PointsStore)
        (pl : String → Option (List (String × List (String × ℚ)))) (df : Nat → ℚ) (now : Nat),
      PointsStore.load none pf pl df now = emptyPointsStore now) ∧
    (∀ (s : String) (pf : String → Option PointsStore)
        (pl : String → Option (List (String × List (String × ℚ)))) (df : Nat → ℚ) (now : Nat),
      pf s = none → pl s = none →
      PointsStore.load (some s) pf pl df now = emptyPointsStore now) ∧
    (∀ (now : Nat) (ticker bucket : String),
      (emptyPointsStore now).get_score ticker bucket = 0) := by
  refine ⟨fun pf pl df now => rfl, fun s pf pl df now hpf hpl => ?_, fun now t b => rfl⟩
  simp [PointsStore.load, hpf, hpl]

/-- Concrete instantiation of `c10_load_never_fails`: a missing file and an
unparseable file both load as the empty store, whose scores are all `0`. -/
theorem c10_load_never_fails_witness :
    PointsStore.load none (fun _ => none) (fun _ => none) (fun _ => 1) 42 = emptyPointsStore 42 ∧
    PointsStore.load (some "not json") (fun _ => none) (fun _ => none) (fun _ => 1) 42 =
      emptyPointsStore 42 ∧
    (emptyPointsStore 42).get_score "AAPL" "low" = 0 :=
  ⟨c10_load_never_fails.1 (fun _ => none) (fun _ => none) (fun _ => 1) 42,
   c10_load_never_fails.2.1 "not json" (fun _ => none) (fun _ => none) (fun _ => 1) 42 rfl rfl,
   c10_load_never_fails.2.2 42 "AAPL" "low"⟩

/-! ## Stock data model and monthly price lookup (`src/stocks.rs`) -/

/-- `Stock` from `stocks.rs`.  `price` is the current market price; the two
derived, cycle-scoped fields `historical_return` (percent) and
`historical_start_price` are `Option`s exactly as in the source. -/
structure Stock where
  ticker : String
  price : ℚ
  sectors : List String
  volatility : ℚ
  name : String
  market_cap : Nat
  first_trading_date : Option String
  last_trading_date : Option String
  historical_return : Option ℚ
  historical_start_price : Option ℚ
deriving DecidableEq

/-- `Stock::get_current_price`: the current market price, used for all
budget/submission arithmetic. -/
def Stock.get_current_price (s : Stock) : ℚ := s.price

/-- `Stock::get_purchase_price`: historical start price when available,
else the current price. -/
def Stock.get_purchase_price (s : Stock) : ℚ :=
  s.historical_start_price.getD s.price

/-- Split a character list at `'-'` separators (the `%Y-%m-%d` field split). -/
def splitDash : List Char → List (List Char)
  | [] => [[]]
  | c :: rest =>
    match splitDash rest with
    | [] => [[]]
    | g :: gs => if c = '-' then [] :: g :: gs else (c :: g) :: gs

/-- Parse a non-empty all-digit character list as a natural number. -/
def digitsToNat : List Char → Nat → Option Nat
  | [], acc => some acc
  | c :: rest, acc =>
    if '0' ≤ c ∧ c ≤ '9' then digitsToNat rest (acc * 10 + (c.toNat - '0'.toNat))
    else none

/-- Parse a decimal field, rejecting the empty string. -/
def parseNatField (cs : List Char) : Option Nat :=
  if cs = [] then none else digitsToNat cs 0

/-- Gregorian leap-year test (as used by chrono's proleptic calendar). -/
def isLeapYear (y : Int) : Bool := (y % 4 = 0 ∧ y % 100 ≠ 0) ∨ y % 400 = 0

/-- Number of days in a month of a given year. -/
def daysInMonth (y : Int) (m : Nat) : Nat :=
  if m = 2 then (if isLeapYear y then 29 else 28)
  else if m = 4 ∨ m = 6 ∨ m = 9 ∨ m = 11 then 30
  else 31

/-- Day number of a proleptic-Gregorian civil date (days since 1970-01-01,
the standard days-from-civil algorithm).  Differences of this function are
what `chrono::NaiveDate` subtraction (`num_days`) returns. -/
def daysFromCivil (y : Int) (m d : Nat) : Int :=
  let y' : Int := if m ≤ 2 then y - 1 else y
  let era : Int := (if 0 ≤ y' then y' else y' - 399) / 400
  let yoe : Int := y' - era * 400
  let mp : Nat := (m + 9) % 12
  let doy : Int := ((153 * mp + 2) / 5 : Nat) + d - 1
  let doe : Int := yoe * 365 + yoe / 4 - yoe / 100 + doy
  era * 146097 + doe - 719468

/-- `chrono::NaiveDate::parse_from_str(s, "%Y-%m-%d")`, returning the civil
day number of the parsed date (`none` on malformed input or an out-of-range
month/day, as chrono rejects those). -/
def parseDateDays (s : String) : Option Int :=
  match splitDash s.data with
  | [ys, ms, ds] =>
    match parseNatField ys, parseNatField ms, parseNatField ds with
    | some y, some m, some d =>
      if 1 ≤ m ∧ m ≤ 12 ∧ 1 ≤ d ∧ d ≤ daysInMonth y m then
        some (daysFromCivil y m d)
      else none
    | _, _, _ => none
  | _ => none

/-- `MonthlyPriceData` from `stocks.rs`: parallel lists of `"YYYY-MM"` labels
and prices, plus the bookkeeping fields the lookup never reads. -/
structure MonthlyPriceData where
  dates : List String
  prices : List ℚ
  first_trading : String
  last_trading : String
  data_points : Nat
deriving DecidableEq

/-- First-match association lookup (`HashMap::get` for the monthly cache;
the program builds the map from unique ticker keys). -/
def lookupAssoc (cache : List (String × MonthlyPriceData)) (ticker : String) :
    Option MonthlyPriceData :=
  (cache.find? (fun e => e.1 = ticker)).map (fun e => e.2)

/-- Core loop of Rust `slice::binary_search_by` over the month labels.
`fuel` is an iteration budget; each Rust iteration shrinks `hi - lo`, so any
`fuel ≥ hi - lo` reproduces the Rust loop exactly (see
`binSearchGo_split`/`binSearchGo_found`). -/
def binSearchGo (l : List String) (t : String) : Nat → Nat → Nat → Except Nat Nat
  | 0, lo, _ => .error lo
  | fuel + 1, lo, hi =>
    if lo < hi then
      let mid := (lo + hi) / 2
      match strCmp (l.getD mid "") t with
      | .lt => binSearchGo l t fuel (mid + 1) hi
      | .gt => binSearchGo l t fuel lo mid
      | .eq => .ok mid
    else .error lo

/-- `dates.binary_search_by(|month| month.as_str().cmp(target_month))`. -/
def binSearchMonths (l : List String) (t : String) : Except Nat Nat :=
  binSearchGo l t l.length 0 l.length

/-- `linear_interpolate` from `stocks.rs`. -/
def linear_interpolate (start_value end_value r : ℚ) : ℚ :=
  start_value + (end_value - start_value) * r

/-- `get_monthly_price` from `stocks.rs`: exact month match, clamping before
the first / after the last sample, and linear interpolation (with the
elapsed-day ratio clamped to `[0,1]`) between the two bracketing samples. -/
def get_monthly_price (cache : List (String × MonthlyPriceData))
    (ticker target_date : String) : Option ℚ :=
  let target_month : String := (target_date.data.take 7).asString
  match parseDateDays target_date with
  | none => none
  | some target =>
    match lookupAssoc cache ticker with
    | none => none
    | some sd =>
      match binSearchMonths sd.dates target_month with
      | .ok idx => some (sd.prices.getD idx 0)
      | .error idx =>
        if idx = 0 then some (sd.prices.getD 0 0)
        else if sd.dates.length ≤ idx then sd.prices.getLast?
        else
          let before_month := sd.dates.getD (idx - 1) ""
          let after_month := sd.dates.getD idx ""
          match parseDateDays (before_month ++ "-01"), parseDateDays (after_month ++ "-01") with
          | some before_days, some after_days =>
            let total_days : ℚ := ((after_days - before_days : Int) : ℚ)
            let target_days : ℚ := ((target - before_days : Int) : ℚ)
            let r : ℚ := min (max (target_days / total_days) 0) 1
            some (linear_interpolate (sd.prices.getD (idx - 1) 0) (sd.prices.getD idx 0) r)
          | _, _ => none

theorem strCmp_lt_imp {a b : String} (h : strCmp a b = .lt) : strLtB a b = true := by
  by_cases h1 : strLtB a b = true
  · exact h1
  · by_cases h2 : strLtB b a = true <;> simp [strCmp, h1, h2] at h

theorem strCmp_gt_imp {a b : String} (h : strCmp a b = .gt) : strLtB b a = true := by
  by_cases h1 : strLtB a b = true
  · simp [strCmp, h1] at h
  · by_cases h2 : strLtB b a = true
    · exact h2
    · simp [strCmp, h1, h2] at h

/-- If the search window splits at `j` (everything below `j` is `< t`,
everything from `j` on is `> t`), the binary search returns `Err j` — the
insertion point.  This covers the before-first, after-last and
strictly-between cases of `get_monthly_price`. -/
theorem binSearchGo_split (l : List String) (t : String) :
    ∀ (fuel lo hi j : Nat), hi - lo ≤ fuel → lo ≤ j → j ≤ hi → hi ≤ l.length →
    (∀ k, lo ≤ k → k < j → strLtB (l.getD k "") t = true) →
    (∀ k, j ≤ k → k < hi → strLtB t (l.getD k "") = true) →
    binSearchGo l t fuel lo hi = .error j := by
  intro fuel
  induction fuel with
  | zero =>
    intro lo hi j hfuel hloj hjhi _ _ _
    have : j = lo := by omega
    simp [binSearchGo, this]
  | succ fuel ih =>
    intro lo hi j hfuel hloj hjhi hhi hlow hhigh
    by_cases hlt : lo < hi
    · have hmid1 : lo ≤ (lo + hi) / 2 := by omega
      have hmid2 : (lo + hi) / 2 < hi := by omega
      by_cases hmj : (lo + hi) / 2 < j
      · have hcmp : strCmp (l.getD ((lo + hi) / 2) "") t = .lt :=
          strCmp_eq_lt (hlow _ hmid1 hmj)
        simp only [binSearchGo, if_pos hlt, hcmp]
        exact ih ((lo + hi) / 2 + 1) hi j (by omega) (by omega) hjhi hhi
          (fun k hk1 hk2 => hlow k (by omega) hk2)
          (fun k hk1 hk2 => hhigh k hk1 hk2)
      · have hcmp : strCmp (l.getD ((lo + hi) / 2) "") t = .gt :=
          strCmp_eq_gt (hhigh _ (by omega) hmid2)
        simp only [binSearchGo, if_pos hlt, hcmp]
        exact ih lo ((lo + hi) / 2) j (by omega) hloj (by omega) (by omega)
          (fun k hk1 hk2 => hlow k hk1 hk2)
          (fun k hk1 hk2 => hhigh k hk1 (by omega))
    · have : j = lo := by omega
      simp [binSearchGo, if_neg hlt, this]

/-- If the label list is strictly sorted and the target occurs at index `i`
inside the window, the binary search finds an index holding the target. -/
theorem binSearchGo_found (l : List String) (t : String)
    (hsorted : l.Pairwise (fun a b => strLtB a b = true)) :
    ∀ (fuel lo hi i : Nat), hi - lo ≤ fuel → lo ≤ i → i < hi → hi ≤ l.length →
    l.getD i "" = t →
    ∃ j, binSearchGo l t fuel lo hi = .ok j ∧ j < l.length ∧ l.getD j "" = t := by
  have hpair : ∀ (a b : Nat), a < b → b < l.length →
      strLtB (l.getD a "") (l.getD b "") = true := by
    intro a b hab hb
    rw [List.getD_eq_getElem l "" (by omega), List.getD_eq_getElem l "" hb]
    exact List.pairwise_iff_getElem.mp hsorted a b (by omega) hb hab
  intro fuel
  induction fuel with
  | zero => intro lo hi i hfuel hloi hihi _ _; omega
  | succ fuel ih =>
    intro lo hi i hfuel hloi hihi hhi hit
    have hlt : lo < hi := by omega
    have hmid1 : lo ≤ (lo + hi) / 2 := by omega
    have hmid2 : (lo + hi) / 2 < hi := by omega
    rcases hc : strCmp (l.getD ((lo + hi) / 2) "") t with hlt' | hgt' | heq'
    · -- probe < target: the target index must be above mid
      have hmi : (lo + hi) / 2 < i := by
        rcases Nat.lt_trichotomy i ((lo + hi) / 2) with h' | h' | h'
        · have := hpair i ((lo + hi) / 2) h' (by omega)
          rw [hit] at this
          have := strLtB_asymm this
          rw [strCmp_lt_imp hc] at this
          exact absurd this (by simp)
        · rw [h'] at hit
          rw [hit] at hc
          have := strCmp_lt_imp hc
          rw [strLtB_irrefl] at this
          exact absurd this (by simp)
        · exact h'
      simp only [binSearchGo, if_pos hlt, hc]
      exact ih ((lo + hi) / 2 + 1) hi i (by omega) (by omega) hihi hhi hit
    · -- probe = target
      simp only [binSearchGo, if_pos hlt, hc]
      exact ⟨(lo + hi) / 2, rfl, by omega, strCmp_eq_eq hc⟩
    · -- probe > target: the target index must be below mid
      have hmi : i < (lo + hi) / 2 := by
        rcases Nat.lt_trichotomy i ((lo + hi) / 2) with h' | h' | h'
        · exact h'
        · rw [h'] at hit
          rw [hit] at hc
          have := strCmp_gt_imp hc
          rw [strLtB_irrefl] at this
          exact absurd this (by simp)
        · have := hpair ((lo + hi) / 2) i h' (by omega)
          rw [hit] at this
          have h2 := strCmp_gt_imp hc
          have := strLtB_asymm this
          rw [h2] at this
          exact absurd this (by simp)
      simp only [binSearchGo, if_pos hlt, hc]
      exact ih lo ((lo + hi) / 2) i (by omega) hloi hmi (by omega) hit

theorem sorted_months_unique {l : List String}
    (hsorted : l.Pairwise (fun a b => strLtB a b = true)) {i j : Nat} {t : String}
    (hi : i < l.length) (hj : j < l.length)
    (h1 : l.getD i "" = t) (h2 : l.getD j "" = t) : i = j := by
  have hpair : ∀ (a b : Nat), a < b → b < l.length →
      strLtB (l.getD a "") (l.getD b "") = true := by
    intro a b hab hb
    rw [List.getD_eq_getElem l "" (by omega), List.getD_eq_getElem l "" hb]
    exact List.pairwise_iff_getElem.mp hsorted a b (by omega) hb hab
  rcases Nat.lt_trichotomy i j with h | h | h
  · have := hpair i j h hj
    rw [h1, h2, strLtB_irrefl] at this
    exact absurd this (by simp)
  · exact h
  · have := hpair j i h hi
    rw [h1, h2, strLtB_irrefl] at this
    exact absurd this (by simp)

theorem linear_interpolate_between (a b r : ℚ) (h0 : 0 ≤ r) (h1 : r ≤ 1) :
    min a b ≤ linear_interpolate a b r ∧ linear_interpolate a b r ≤ max a b := by
  rw [linear_interpolate]
  rcases le_total a b with hab | hab
  · have hba : 0 ≤ b - a := by linarith
    have hl : 0 ≤ (b - a) * r := mul_nonneg hba h0
    have hu : (b - a) * r ≤ (b - a) * 1 := mul_le_mul_of_nonneg_left h1 hba
    constructor
    · calc min a b ≤ a := min_le_left a b
        _ ≤ a + (b - a) * r := by linarith
    · calc a + (b - a) * r ≤ b := by linarith
        _ ≤ max a b := le_max_right a b
  · have hba : b - a ≤ 0 := by linarith
    have hl : (b - a) * r ≤ 0 := mul_nonpos_of_nonpos_of_nonneg hba h0
    have hu : (b - a) * 1 ≤ (b - a) * r := mul_le_mul_of_nonpos_left h1 hba
    constructor
    · calc min a b ≤ b := min_le_right a b
        _ ≤ a + (b - a) * r := by linarith
    · calc a + (b - a) * r ≤ a := by linarith
        _ ≤ max a b := le_max_left a b

/-- C5: behaviour of `get_monthly_price` on a ticker whose monthly series has
strictly ordered labels, equally long price data and at least two samples,
for a parseable target date.  (i) An exact month match returns that sample's
price; (ii) a target month before the first label returns the first sample's
price; (iii) a target month after the last label returns the last sample's
price; (iv) a target month strictly between two adjacent labels returns a
value between (inclusive) the two bracketing sample prices. -/
theorem c5_monthly_lookup (cache : List (String × MonthlyPriceData))
    (ticker target_date : String) (sd : MonthlyPriceData) (td : Int)
    (hlk : lookupAssoc cache ticker = some sd)
    (hsorted : sd.dates.Pairwise (fun a b => strLtB a b = true))
    (hlen : sd.dates.length = sd.prices.length)
    (h2 : 2 ≤ sd.dates.length)
    (hpt : parseDateDays target_date = some td) :
    (∀ i, i < sd.dates.length → sd.dates.getD i "" = (target_date.data.take 7).asString →
      get_monthly_price cache ticker target_date = some (sd.prices.getD i 0)) ∧
    (strLtB ((target_date.data.take 7).asString) (sd.dates.getD 0 "") = true →
      get_monthly_price cache ticker target_date = some (sd.prices.getD 0 0)) ∧
    (strLtB (sd.dates.getD (sd.dates.length - 1) "") ((target_date.data.take 7).asString) = true →
      get_monthly_price cache ticker target_date = some (sd.prices.getD (sd.prices.length - 1) 0)) ∧
    (∀ i, i + 1 < sd.dates.length →
      strLtB (sd.dates.getD i "") ((target_date.data.take 7).asString) = true →
      strLtB ((target_date.data.take 7).asString) (sd.dates.getD (i + 1) "") = true →
      (parseDateDays (sd.dates.getD i "" ++ "-01")).isSome →
      (parseDateDays (sd.dates.getD (i + 1) "" ++ "-01")).isSome →
      ∃ v, get_monthly_price cache ticker target_date = some v ∧
        min (sd.prices.getD i 0) (sd.prices.getD (i + 1) 0) ≤ v ∧
        v ≤ max (sd.prices.getD i 0) (sd.prices.getD (i + 1) 0)) := by
  set tm : String := (target_date.data.take 7).asString with htm
  have hpair : ∀ (a b : Nat), a < b → b < sd.dates.length →
      strLtB (sd.dates.getD a "") (sd.dates.getD b "") = true := by
    intro a b hab hb
    rw [List.getD_eq_getElem _ "" (by omega), List.getD_eq_getElem _ "" hb]
    exact List.pairwise_iff_getElem.mp hsorted a b (by omega) hb hab
  refine ⟨?_, ?_, ?_, ?_⟩
  · -- (i) exact month match
    intro i hi hit
    obtain ⟨j, hrun, hjlen, hjt⟩ :=
      binSearchGo_found sd.dates tm hsorted sd.dates.length 0 sd.dates.length i
        (by omega) (by omega) hi le_rfl hit
    have hij : i = j := sorted_months_unique hsorted hi hjlen hit hjt
    simp only [get_monthly_price, hpt, hlk, ← htm, binSearchMonths, hrun, ← hij]
  · -- (ii) before the first sample
    intro hfirst
    have hrun : binSearchGo sd.dates tm sd.dates.length 0 sd.dates.length = .error 0 :=
      binSearchGo_split sd.dates tm sd.dates.length 0 sd.dates.length 0
        (by omega) (by omega) (by omega) le_rfl
        (fun k hk1 hk2 => by omega)
        (fun k hk1 hk2 => by
          rcases Nat.eq_zero_or_pos k with hk | hk
          · rw [hk]; exact hfirst
          · exact strLtB_trans hfirst (hpair 0 k hk hk2))
    simp only [get_monthly_price, hpt, hlk, ← htm, binSearchMonths, hrun, if_pos rfl, if_true]
  · -- (iii) after the last sample
    intro hlast
    have hrun : binSearchGo sd.dates tm sd.dates.length 0 sd.dates.length =
        .error sd.dates.length :=
      binSearchGo_split sd.dates tm sd.dates.length 0 sd.dates.length sd.dates.length
        (by omega) (by omega) (by omega) le_rfl
        (fun k hk1 hk2 => by
          rcases Nat.lt_or_ge k (sd.dates.length - 1) with hk | hk
          · exact strLtB_trans (hpair k (sd.dates.length - 1) hk (by omega)) hlast
          · have : k = sd.dates.length - 1 := by omega
            rw [this]; exact hlast)
        (fun k hk1 hk2 => by omega)
    have hplen : 0 < sd.prices.length := by omega
    have hlastp : sd.prices.getLast? = some (sd.prices.getD (sd.prices.length - 1) 0) := by
      rw [List.getLast?_eq_getElem?, List.getElem?_eq_getElem (by omega),
        List.getD_eq_getElem _ 0 (by omega)]
    simp only [get_monthly_price, hpt, hlk, ← htm, binSearchMonths, hrun,
      if_neg (by omega : ¬ sd.dates.length = 0), if_pos le_rfl, hlastp]
  · -- (iv) strictly between two adjacent samples
    intro i hi hbefore hafter hpb hpa
    obtain ⟨bd, hbd⟩ := Option.isSome_iff_exists.mp hpb
    obtain ⟨ad, had⟩ := Option.isSome_iff_exists.mp hpa
    have hrun : binSearchGo sd.dates tm sd.dates.length 0 sd.dates.length = .error (i + 1) :=
      binSearchGo_split sd.dates tm sd.dates.length 0 sd.dates.length (i + 1)
        (by omega) (by omega) (by omega) le_rfl
        (fun k hk1 hk2 => by
          rcases Nat.lt_or_ge k i with hk | hk
          · exact strLtB_trans (hpair k i hk (by omega)) hbefore
          · have : k = i := by omega
            rw [this]; exact hbefore)
        (fun k hk1 hk2 => by
          rcases Nat.lt_or_ge (i + 1) k with hk | hk
          · exact strLtB_trans hafter (hpair (i + 1) k hk hk2)
          · have : k = i + 1 := by omega
            rw [this]; exact hafter)
    have hr0 : (0:ℚ) ≤ min (max ((((td - bd : Int) : ℚ)) / (((ad - bd : Int) : ℚ))) 0) 1 :=
      le_min (le_max_right _ 0) (by norm_num)
    have hr1 : min (max ((((td - bd : Int) : ℚ)) / (((ad - bd : Int) : ℚ))) 0) 1 ≤ 1 :=
      min_le_right _ 1
    obtain ⟨hlow, hhigh⟩ := linear_interpolate_between (sd.prices.getD i 0)
      (sd.prices.getD (i + 1) 0) _ hr0 hr1
    refine ⟨_, ?_, hlow, hhigh⟩
    simp only [get_monthly_price, hpt, hlk, ← htm, binSearchMonths, hrun,
      if_neg (by omega : ¬ i + 1 = 0), if_neg (by omega : ¬ sd.dates.length ≤ i + 1),
      Nat.add_sub_cancel, hbd, had]

/-- Two-sample monthly series used to instantiate `c5_monthly_lookup`. -/
def c5ExampleData : MonthlyPriceData :=
  { dates := ["2020-01", "2020-03"], prices := [10, 20],
    first_trading := "2020-01", last_trading := "2020-03", data_points := 2 }

/-- One-ticker monthly cache used to instantiate `c5_monthly_lookup`. -/
def c5ExampleCache : List (String × MonthlyPriceData) := [("AAA", c5ExampleData)]

/-- Concrete instantiation of `c5_monthly_lookup`: looking up 2020-02-15,
strictly between the 2020-01 and 2020-03 samples, returns a value between
the bracketing prices 10 and 20. -/
theorem c5_monthly_lookup_witness :
    ∃ v, get_monthly_price c5ExampleCache "AAA" "2020-02-15" = some v ∧
      min (10:ℚ) 20 ≤ v ∧ v ≤ max (10:ℚ) 20 := by
  have h := (c5_monthly_lookup c5ExampleCache "AAA" "2020-02-15" c5ExampleData 18307
    (by decide) (by decide) (by decide) (by decide) (by decide)).2.2.2 0
    (by decide) (by decide) (by decide) (by decide) (by decide)
  simpa [c5ExampleData] using h

/-! ## Investor profile (`src/investor.rs`) -/

/-- `RiskLevel` from `investor.rs`. -/
inductive RiskLevel
  | conservative
  | moderate
  | aggressive
deriving DecidableEq

/-! ## Allocation Engine (`src/portfolio.rs`) -/

/-- Weight given to historical return in the combined score (`RETURN_WEIGHT = 0.7`). -/
def RETURN_WEIGHT : ℚ := 7/10

/-- Rank-based concentrated allocation switch (`CONCENTRATE_ALLOCATION = true`). -/
def CONCENTRATE_ALLOCATION : Bool := true

/-- Rank quantity targets (`RANK_QUANTITIES`), index 0 = top performer. -/
def RANK_QUANTITIES : List Int := [50, 20, 15, 10, 8, 6, 5, 4, 3, 2, 1, 1, 1, 1, 1]

/-- Hard cap on the number of distinct positions (`MAX_POSITIONS = 12`). -/
def MAX_POSITIONS : Nat := 12

/-- Fraction of the budget the allocator may spend (`BUDGET_SPEND_FRACTION = 0.5`). -/
def BUDGET_SPEND_FRACTION : ℚ := 1/2

/-- `budget_spend_fraction()`: returns the compiled constant (the code never
reads the environment despite its doc comment). -/
def budget_spend_fraction : ℚ := BUDGET_SPEND_FRACTION

/-- Placeholder stock used for the (always in-bounds) vector indexing of the
greedy round-robin loop. -/
def defaultStock : Stock :=
  { ticker := "", price := 0, sectors := [], volatility := 0, name := "",
    market_cap := 0, first_trading_date := none, last_trading_date := none,
    historical_return := none, historical_start_price := none }

/-- `s.historical_return.map_or(false, |r| r < 0.0)` — the negative-return
test used by the retain/filter steps. -/
def hasNegativeReturn (s : Stock) : Bool :=
  match s.historical_return with
  | some r => r < 0
  | none => false

/-- `calculate_portfolio_cost`: sum of current price times quantity over the
portfolio, `0` for a ticker absent from the stock list. -/
def calculate_portfolio_cost (portfolio : List (String × Int)) (stocks : List Stock) : ℚ :=
  (portfolio.map (fun e =>
    match stocks.find? (fun s => s.ticker = e.1) with
    | some s => s.get_current_price * (e.2 : ℚ)
    | none => 0)).sum

/-- `validate_budget`: true when the portfolio's cost is at most the budget. -/
def validate_budget (portfolio : List (String × Int)) (stocks : List Stock) (budget : ℚ) : Bool :=
  calculate_portfolio_cost portfolio stocks ≤ budget

/-- Total number of shares (non-negative part) in a portfolio; the
termination measure of the share-trimming loops. -/
def sharesNat (portfolio : List (String × Int)) : Nat :=
  (portfolio.map (fun e => e.2.toNat)).sum

/-- Index scan of `iter().enumerate().max_by_key(qty)`: Rust's `max_by_key`
returns the last maximal element, so a later element wins ties. -/
def lastMaxIdxGo : List (String × Int) → Nat → Nat → Int → Nat
  | [], _, bi, _ => bi
  | e :: rest, i, bi, bq =>
    if bq ≤ e.2 then lastMaxIdxGo rest (i + 1) i e.2 else lastMaxIdxGo rest (i + 1) bi bq

/-- Index of the position with the most shares (`max_by_key` over quantities),
`none` for the empty portfolio. -/
def lastMaxIdx : List (String × Int) → Option Nat
  | [] => none
  | e :: rest => some (lastMaxIdxGo rest 1 0 e.2)

/-- One-share-at-a-time reduction loop of `force_within_budget`.  `fuel`
bounds the iterations; the wrapper passes `sharesNat p + 1`, which is enough
for every state with positive quantities (each Rust iteration removes one
share, and the loop stops at the latest when the portfolio is empty). -/
def forceWithinBudgetGo (stocks : List Stock) (budget : ℚ) :
    Nat → List (String × Int) → List (String × Int)
  | 0, p => p
  | fuel + 1, p =>
    if budget < calculate_portfolio_cost p stocks then
      match lastMaxIdx p with
      | none => p
      | some idx =>
        let e := p.getD idx ("", 0)
        -- decrement by one share; removing the position when the count hits
        -- zero is the same as erasing the entry at `idx` directly
        let p₂ := if e.2 - 1 = 0 then p.eraseIdx idx else p.set idx (e.1, e.2 - 1)
        forceWithinBudgetGo stocks budget fuel p₂
    else p

/-- `force_within_budget`: remove one share at a time from the largest
position until the cost is at or under budget, dropping emptied positions. -/
def force_within_budget (portfolio : List (String × Int)) (stocks : List Stock)
    (budget : ℚ) : List (String × Int) :=
  forceWithinBudgetGo stocks budget (sharesNat portfolio + 1) portfolio

/-- Ranking comparator of `build_portfolio`'s `sort_by`, reflected as the
boolean "less or equal" relation the stable sort consumes (comparator result
is not `Greater`): by historical return descending when both are present;
a stock with a return sorts before one without; two stocks without returns
compare by ascending volatility; two stocks with equal returns compare as
equal. -/
def returnRankLe (a b : Stock) : Bool :=
  match a.historical_return, b.historical_return with
  | some ra, some rb => rb ≤ ra
  | some _, none => true
  | none, some _ => false
  | none, none => a.volatility ≤ b.volatility

/-- The `sorted_stocks` ranking of `build_portfolio` (stable sort by
`returnRankLe`). -/
def sortStocksByReturn (stocks : List Stock) : List Stock :=
  stocks.mergeSort returnRankLe

/-- Iteration cap of the greedy round-robin loop (`max_iterations = 10000`). -/
def MAX_GREEDY_ITERATIONS : Nat := 10000

/-- First pass of `build_greedy_portfolio`: one share of each affordable
stock, in order.  Returns the per-stock share counts and the remaining
budget.  The source's "undo and break" branch for a negative remainder is
included; it cannot fire in exact arithmetic. -/
def greedyFirstPass : List Stock → ℚ → List Int × ℚ
  | [], rem => ([], rem)
  | s :: rest, rem =>
    if s.get_current_price ≤ rem ∧ 0 < s.get_current_price then
      let rem' := rem - s.get_current_price
      if rem' < 0 then (0 :: rest.map (fun _ => 0), rem)
      else
        let res := greedyFirstPass rest rem'
        (1 :: res.1, res.2)
    else
      let res := greedyFirstPass rest rem
      (0 :: res.1, res.2)

/-- Second (round-robin) pass of `build_greedy_portfolio`.  The `fuel`
argument plays the role of `max_iterations - safety_counter`; the final
component of the result is the value of `safety_counter` at exit.  The
source's rollback branch for a remainder below `-0.01` is included; it
cannot fire in exact arithmetic. -/
def greedySecondPass (aff : List Stock) :
    Nat → List Int → ℚ → Nat → Nat → List Int × ℚ × Nat
  | 0, shares, rem, _, counter => (shares, rem, counter)
  | fuel + 1, shares, rem, idx, counter =>
    if 0 < rem then
      let counter' := counter + 1
      let price := (aff.getD idx defaultStock).get_current_price
      if price ≤ rem ∧ 0 < price then
        if rem - price < -(1/100) then (shares, rem, counter')
        else
          let shares' := shares.set idx (shares.getD idx 0 + 1)
          let rem' := rem - price
          let idx' := (idx + 1) % aff.length
          if aff.all (fun s2 => rem' < s2.get_current_price) then (shares', rem', counter')
          else greedySecondPass aff fuel shares' rem' idx' counter'
      else
        let idx' := (idx + 1) % aff.length
        if aff.all (fun s2 => rem < s2.get_current_price) then (shares, rem, counter')
        else greedySecondPass aff fuel shares rem idx' counter'
    else (shares, rem, counter)

/-- Core of `build_greedy_portfolio` before its final budget check: filter to
affordable non-negative-return stocks, sort by price ascending, cap at
`MAX_POSITIONS`, run the two passes, and collect the positive share counts.
Also returns the remaining budget and the loop counter at exit. -/
def greedyCore (stocks : List Stock) (budget : ℚ) : List (String × Int) × ℚ × Nat :=
  let affordable₀ := stocks.filter
    (fun s => s.get_current_price ≤ budget ∧ ¬ hasNegativeReturn s)
  if affordable₀ = [] then ([], budget, 0)
  else
    let affordable := (affordable₀.mergeSort
      (fun a b => a.get_current_price ≤ b.get_current_price)).take MAX_POSITIONS
    let first := greedyFirstPass affordable budget
    let second := greedySecondPass affordable MAX_GREEDY_ITERATIONS first.1 first.2 0 0
    ((affordable.zip second.1).filterMap
      (fun e => if 0 < e.2 then some (e.1.ticker, e.2) else none),
     second.2.1, second.2.2)

/-- `build_greedy_portfolio`: greedy core plus the final budget
check-and-repair. -/
def build_greedy_portfolio (stocks : List Stock) (budget : ℚ) : List (String × Int) :=
  let p := (greedyCore stocks budget).1
  if ¬ validate_budget p stocks budget then force_within_budget p stocks budget else p

/-- `calculate_performance_weights`: normalised non-negative historical
returns, equal weights when they sum to zero. -/
def calculate_performance_weights (stocks : List Stock) : List ℚ :=
  let weights := stocks.map (fun s => max (s.historical_return.getD 0) 0)
  let total := weights.sum
  if 0 < total then weights.map (fun w => w / total)
  else stocks.map (fun _ => 1 / (stocks.length : ℚ))

/-- `volatility_bucket`: stable bucket name for a numeric volatility. -/
def volatility_bucket (volatility : ℚ) : String :=
  if volatility < 3/100 then VOL_LOW
  else if volatility < 5/100 then VOL_MED
  else VOL_HIGH

/-- Concentrated allocation loop of `build_weighted_portfolio`: buy the rank
table's target quantity for each ranked stock, reducing to the largest
affordable count when the remaining allocation budget does not cover it. -/
def concentratedGo (alloc_budget : ℚ) :
    List Stock → Nat → List (String × Int) → ℚ → List (String × Int) × ℚ
  | [], _, portfolio, allocated => (portfolio, allocated)
  | s :: rest, i, portfolio, allocated =>
    let price := s.get_current_price
    if price ≤ 0 then concentratedGo alloc_budget rest (i + 1) portfolio allocated
    else
      let desired_qty := RANK_QUANTITIES.getD i 1
      if desired_qty ≤ 0 then concentratedGo alloc_budget rest (i + 1) portfolio allocated
      else
        let desired_cost := (desired_qty : ℚ) * price
        if allocated + desired_cost ≤ alloc_budget then
          concentratedGo alloc_budget rest (i + 1)
            (portfolio ++ [(s.ticker, desired_qty)]) (allocated + desired_cost)
        else
          let remaining := max (alloc_budget - allocated) 0
          let afford_qty : Int := ⌊remaining / price⌋
          if 0 < afford_qty then
            concentratedGo alloc_budget rest (i + 1)
              (portfolio ++ [(s.ticker, afford_qty)]) (allocated + (afford_qty : ℚ) * price)
          else concentratedGo alloc_budget rest (i + 1) portfolio allocated

/-- Proportional (legacy) allocation loop of `build_weighted_portfolio`.
In the source a zero or negative price makes the float division produce
inf/NaN and the position is skipped; here the rational division yields a
non-positive quantity and the position is likewise skipped. -/
def proportionalGo (alloc_budget : ℚ) (combined : List ℚ) :
    List Stock → Nat → List (String × Int) → ℚ → List (String × Int) × ℚ
  | [], _, portfolio, allocated => (portfolio, allocated)
  | s :: rest, i, portfolio, allocated =>
    let purchase_price := s.get_current_price
    let target_allocation := alloc_budget * combined.getD i 0
    let quantity : Int := ⌊target_allocation / purchase_price⌋
    if 0 < quantity then
      let cost := (quantity : ℚ) * purchase_price
      if allocated + cost ≤ alloc_budget then
        proportionalGo alloc_budget combined rest (i + 1)
          (portfolio ++ [(s.ticker, quantity)]) (allocated + cost)
      else proportionalGo alloc_budget combined rest (i + 1) portfolio allocated
    else proportionalGo alloc_budget combined rest (i + 1) portfolio allocated

/-- Add `qty` shares to the first existing position with this ticker, or push
a new position at the end (`deploy_remaining_budget`'s merge step). -/
def bumpQty : List (String × Int) → String → Int → List (String × Int)
  | [], t, q => [(t, q)]
  | e :: rest, t, q => if e.1 = t then (e.1, e.2 + q) :: rest else e :: bumpQty rest t q

/-- Scan for `min_by` over prices; a strictly cheaper later element replaces
the current best, so the first minimal element wins ties (Rust `min_by`). -/
def minByPriceGo : List (Stock × ℚ) → (Stock × ℚ) → Stock × ℚ
  | [], best => best
  | e :: rest, best => minByPriceGo rest (if e.2 < best.2 then e else best)

/-- `min_by(price)` over a priced candidate list. -/
def minByPrice : List (Stock × ℚ) → Option (Stock × ℚ)
  | [] => none
  | e :: rest => some (minByPriceGo rest e)

/-- Spending loop of `deploy_remaining_budget`: walk the (price-sorted)
candidates, buy as many whole shares of each as the remaining cash affords
(never exceeding the original budget per purchase), stopping early when the
remainder reaches zero. -/
def deployGo (budget : ℚ) :
    List (Stock × ℚ) → List (String × Int) → ℚ → List (String × Int) × ℚ
  | [], portfolio, rem => (portfolio, rem)
  | c :: rest, portfolio, rem =>
    if c.2 ≤ 0 then deployGo budget rest portfolio rem
    else
      let afford_qty : Int := ⌊rem / c.2⌋
      if afford_qty ≤ 0 then deployGo budget rest portfolio rem
      else
        let cost := (afford_qty : ℚ) * c.2
        let step :=
          if cost ≤ rem ∧ cost ≤ budget then (bumpQty portfolio c.1.ticker afford_qty, rem - cost)
          else (portfolio, rem)
        if step.2 ≤ 0 then step
        else deployGo budget rest step.1 step.2

/-- `deploy_remaining_budget`: deploy leftover cash into the cheapest
affordable non-negative-return candidates (with the single-cheapest fallback
when nothing is directly affordable), never exceeding the original budget. -/
def deploy_remaining_budget (portfolio : List (String × Int)) (remaining : ℚ)
    (budget : ℚ) (stocks : List Stock) : List (String × Int) :=
  if remaining ≤ 0 then portfolio
  else
    let priced := stocks.map (fun s => (s, s.get_current_price))
    let candidates := priced.filter
      (fun e => 0 < e.2 ∧ e.2 ≤ remaining ∧ ¬ hasNegativeReturn e.1)
    if candidates = [] then
      match minByPrice (priced.filter (fun e => 0 < e.2 ∧ ¬ hasNegativeReturn e.1)) with
      | none => portfolio
      | some m =>
        if remaining < m.2 then portfolio
        else (deployGo budget ([m].mergeSort (fun a b => a.2 ≤ b.2)) portfolio remaining).1
    else (deployGo budget (candidates.mergeSort (fun a b => a.2 ≤ b.2)) portfolio remaining).1

/-- Common tail of both `build_weighted_portfolio` branches (the source
inlines it twice): deploy any cash remaining below the original budget, then
validate against the original budget and repair if necessary. -/
def finalizeWeighted (stocks : List Stock) (original_budget allocated : ℚ)
    (portfolio : List (String × Int)) : List (String × Int) :=
  let remaining_original := max (original_budget - allocated) 0
  let portfolio₂ :=
    if 0 < remaining_original then
      deploy_remaining_budget portfolio remaining_original original_budget stocks
    else portfolio
  if ¬ validate_budget portfolio₂ stocks original_budget then
    force_within_budget portfolio₂ stocks original_budget
  else portfolio₂

/-- `build_weighted_portfolio`, with the `CONCENTRATE_ALLOCATION` switch made
an explicit argument so that both the concentrated and the proportional
construction paths can be reasoned about; the program instantiates it with
the constant `true`.  The learned-score store `ps` is the result of
`PointsStore::load` (a file effect, passed in). -/
def build_weighted_portfolio (ps : PointsStore) (concentrate : Bool)
    (stocks : List Stock) (alloc_budget : ℚ) (target_positions : Nat)
    (original_budget : ℚ) : List (String × Int) :=
  let num_positions := min (min target_positions stocks.length) MAX_POSITIONS
  let top_stocks := stocks.take num_positions
  if top_stocks = [] then []
  else
    let return_weights := calculate_performance_weights top_stocks
    let points_raw := top_stocks.map
      (fun s => ps.get_score s.ticker (volatility_bucket s.volatility))
    let points_total := points_raw.sum
    let points_weights :=
      if 0 < points_total then points_raw.map (fun v => v / points_total)
      else points_raw.map (fun _ => 1 / (points_raw.length : ℚ))
    let combined₀ := (List.range top_stocks.length).map
      (fun i => RETURN_WEIGHT * return_weights.getD i 0 +
        (1 - RETURN_WEIGHT) * points_weights.getD i 0)
    let combined_total := combined₀.sum
    let combined :=
      if 0 < combined_total then combined₀.map (fun v => v / combined_total)
      else combined₀.map (fun _ => 1 / (combined₀.length : ℚ))
    if concentrate then
      let conc := concentratedGo alloc_budget top_stocks 0 [] 0
      if conc.1 = [] then build_greedy_portfolio stocks original_budget
      else finalizeWeighted stocks original_budget conc.2 conc.1
    else
      let prop := proportionalGo alloc_budget combined top_stocks 0 [] 0
      finalizeWeighted stocks original_budget prop.2 prop.1

/-- Historical return recorded for a ticker in the metadata list
(`unwrap_or(0.0)`), used by the defensive trim's sort. -/
def lookupReturn (stocks : List Stock) (t : String) : ℚ :=
  ((stocks.find? (fun s => s.ticker = t)).bind (fun s => s.historical_return)).getD 0

/-- `build_portfolio`, with the concentration switch explicit (the program
uses `CONCENTRATE_ALLOCATION = true`; see `build_portfolio`). -/
def buildPortfolioWith (ps : PointsStore) (concentrate : Bool) (stocks : List Stock)
    (budget : ℚ) (risk_level : RiskLevel) : List (String × Int) :=
  if stocks = [] then []
  else if budget ≤ 0 then []
  else
    let sorted_stocks := (sortStocksByReturn stocks).filter (fun s => ¬ hasNegativeReturn s)
    let target_positions : Nat :=
      match risk_level with
      | .conservative => 15
      | .moderate => 10
      | .aggressive => 7
    let alloc_budget := budget * budget_spend_fraction
    let portfolio :=
      if alloc_budget < 5000 then build_greedy_portfolio sorted_stocks budget
      else build_weighted_portfolio ps concentrate sorted_stocks alloc_budget
        target_positions budget
    if MAX_POSITIONS < portfolio.length then
      let portfolio_sorted := portfolio.mergeSort
        (fun a b => lookupReturn stocks b.1 ≤ lookupReturn stocks a.1)
      let trimmed := portfolio_sorted.take MAX_POSITIONS
      if ¬ validate_budget trimmed stocks budget then force_within_budget trimmed stocks budget
      else trimmed
    else
      if budget < calculate_portfolio_cost portfolio stocks then
        force_within_budget portfolio stocks budget
      else portfolio

/-- `build_portfolio` from `portfolio.rs` (concentrated mode, as compiled). -/
def build_portfolio (ps : PointsStore) (stocks : List Stock) (budget : ℚ)
    (risk_level : RiskLevel) : List (String × Int) :=
  buildPortfolioWith ps CONCENTRATE_ALLOCATION stocks budget risk_level

/-! ### Sum bookkeeping for the share-trimming loops -/

theorem sum_map_set {α M : Type*} [AddCommMonoid M] (f : α → M) :
    ∀ (l : List α) (i : Nat) (b : α), (h : i < l.length) →
    ((l.set i b).map f).sum + f l[i] = (l.map f).sum + f b := by
  intro l
  induction l with
  | nil => intro i b h; simp at h
  | cons a as ih =>
    intro i b h
    cases i with
    | zero =>
      simp only [List.set_cons_zero, List.map_cons, List.sum_cons, List.getElem_cons_zero]
      abel
    | succ n =>
      simp only [List.set_cons_succ, List.map_cons, List.sum_cons, List.getElem_cons_succ]
      have hn : n < as.length := by simpa using Nat.lt_of_succ_lt_succ h
      have := ih n b hn
      calc f a + ((as.set n b).map f).sum + f as[n]
          = f a + (((as.set n b).map f).sum + f as[n]) := by abel
        _ = f a + ((as.map f).sum + f b) := by rw [this]
        _ = f a + (as.map f).sum + f b := by abel

theorem sum_map_eraseIdx {α M : Type*} [AddCommMonoid M] (f : α → M) :
    ∀ (l : List α) (i : Nat), (h : i < l.length) →
    ((l.eraseIdx i).map f).sum + f l[i] = (l.map f).sum := by
  intro l
  induction l with
  | nil => intro i h; simp at h
  | cons a as ih =>
    intro i h
    cases i with
    | zero => simp [List.eraseIdx_cons_zero, add_comm]
    | succ n =>
      simp only [List.eraseIdx_cons_succ, List.map_cons, List.sum_cons,
        List.getElem_cons_succ]
      have hn : n < as.length := by simpa using Nat.lt_of_succ_lt_succ h
      have := ih n hn
      calc f a + ((as.eraseIdx n).map f).sum + f as[n]
          = f a + (((as.eraseIdx n).map f).sum + f as[n]) := by abel
        _ = f a + (as.map f).sum := by rw [this]

theorem sharesNat_set (p : List (String × Int)) (i : Nat) (b : String × Int)
    (h : i < p.length) :
    sharesNat (p.set i b) + p[i].2.toNat = sharesNat p + b.2.toNat :=
  sum_map_set (fun e => e.2.toNat) p i b h

theorem sharesNat_eraseIdx (p : List (String × Int)) (i : Nat) (h : i < p.length) :
    sharesNat (p.eraseIdx i) + p[i].2.toNat = sharesNat p :=
  sum_map_eraseIdx (fun e => e.2.toNat) p i h

theorem lastMaxIdxGo_lt (l : List (String × Int)) :
    ∀ (i bi : Nat) (bq : Int), bi < i → lastMaxIdxGo l i bi bq < i + l.length := by
  induction l with
  | nil => intro i bi bq h; simpa [lastMaxIdxGo] using by omega
  | cons e rest ih =>
    intro i bi bq h
    simp only [lastMaxIdxGo]
    by_cases hq : bq ≤ e.2
    · simp only [if_pos hq]
      have := ih (i + 1) i e.2 (by omega)
      simpa [Nat.add_comm, Nat.add_left_comm, List.length_cons] using by omega
    · simp only [if_neg hq]
      have := ih (i + 1) bi bq (by omega)
      simpa [Nat.add_comm, Nat.add_left_comm, List.length_cons] using by omega

theorem lastMaxIdx_lt {p : List (String × Int)} (h : p ≠ []) :
    ∃ idx, lastMaxIdx p = some idx ∧ idx < p.length := by
  cases p with
  | nil => exact absurd rfl h
  | cons e rest =>
    refine ⟨lastMaxIdxGo rest 1 0 e.2, rfl, ?_⟩
    have := lastMaxIdxGo_lt rest 1 0 e.2 (by omega)
    simpa [List.length_cons] using by omega

theorem calculate_portfolio_cost_nil (stocks : List Stock) :
    calculate_portfolio_cost [] stocks = 0 := rfl

/-- Main property of the budget-repair loop: with enough fuel (one unit per
share, as the wrapper provides), a portfolio of positive positions is driven
to cost at most the (non-negative) budget, and positions stay positive. -/
theorem forceWithinBudgetGo_spec (stocks : List Stock) (budget : ℚ) (hb : 0 ≤ budget) :
    ∀ (fuel : Nat) (p : List (String × Int)), (∀ e ∈ p, 1 ≤ e.2) → sharesNat p < fuel →
    calculate_portfolio_cost (forceWithinBudgetGo stocks budget fuel p) stocks ≤ budget ∧
    (∀ e ∈ forceWithinBudgetGo stocks budget fuel p, 1 ≤ e.2) := by
  intro fuel
  induction fuel with
  | zero => intro p _ h; omega
  | succ fuel ih =>
    intro p hpos hfuel
    by_cases hc : budget < calculate_portfolio_cost p stocks
    · have hne : p ≠ [] := by
        intro hnil
        rw [hnil, calculate_portfolio_cost_nil] at hc
        exact absurd hc (not_lt.mpr hb)
      obtain ⟨idx, hidx, hlt⟩ := lastMaxIdx_lt hne
      have hgetD : p.getD idx ("", 0) = p[idx] := List.getD_eq_getElem p ("", 0) hlt
      have hq : 1 ≤ p[idx].2 := hpos _ (List.getElem_mem hlt)
      simp only [forceWithinBudgetGo, if_pos hc, hidx, hgetD]
      by_cases hz : p[idx].2 - 1 = 0
      · simp only [if_pos hz]
        have hshares := sharesNat_eraseIdx p idx hlt
        refine ih (p.eraseIdx idx) ?_ ?_
        · exact fun e he => hpos e ((List.eraseIdx_sublist p idx).mem he)
        · omega
      · simp only [if_neg hz]
        have hshares := sharesNat_set p idx (p[idx].1, p[idx].2 - 1) hlt
        refine ih (p.set idx (p[idx].1, p[idx].2 - 1)) ?_ ?_
        · intro e he
          rcases List.mem_or_eq_of_mem_set he with h' | h'
          · exact hpos e h'
          · rw [h']; omega
        · simp only at hshares; omega
    · simp only [forceWithinBudgetGo, if_neg hc]
      exact ⟨not_lt.mp hc, hpos⟩

/-- Every position surviving the budget-repair loop carries a ticker that was
already in the input portfolio. -/
theorem forceWithinBudgetGo_tickers (stocks : List Stock) (budget : ℚ) :
    ∀ (fuel : Nat) (p : List (String × Int)),
    ∀ e ∈ forceWithinBudgetGo stocks budget fuel p, ∃ e₀ ∈ p, e₀.1 = e.1 := by
  intro fuel
  induction fuel with
  | zero => intro p e he; exact ⟨e, he, rfl⟩
  | succ fuel ih =>
    intro p e he
    by_cases hc : budget < calculate_portfolio_cost p stocks
    · rcases hidx : lastMaxIdx p with _ | idx
      · simp only [forceWithinBudgetGo, if_pos hc, hidx] at he
        exact ⟨e, he, rfl⟩
      · have hlt : idx < p.length := by
          rcases p with _ | ⟨e₀, rest⟩
          · simp [lastMaxIdx] at hidx
          · obtain ⟨idx', h1, h2⟩ := lastMaxIdx_lt (p := e₀ :: rest) (by simp)
            rw [hidx] at h1
            injection h1 with h1
            omega
        have hgetD : p.getD idx ("", 0) = p[idx] := List.getD_eq_getElem p ("", 0) hlt
        simp only [forceWithinBudgetGo, if_pos hc, hidx, hgetD] at he
        by_cases hz : p[idx].2 - 1 = 0
        · rw [if_pos hz] at he
          obtain ⟨e₀, he₀, heq⟩ := ih (p.eraseIdx idx) e he
          exact ⟨e₀, (List.eraseIdx_sublist p idx).mem he₀, heq⟩
        · rw [if_neg hz] at he
          obtain ⟨e₀, he₀, heq⟩ := ih (p.set idx (p[idx].1, p[idx].2 - 1)) e he
          rcases List.mem_or_eq_of_mem_set he₀ with h' | h'
          · exact ⟨e₀, h', heq⟩
          · exact ⟨p[idx], List.getElem_mem hlt, by rw [← heq, h']⟩
    · simp only [forceWithinBudgetGo, if_neg hc] at he
      exact ⟨e, he, rfl⟩

theorem force_within_budget_cost (portfolio : List (String × Int)) (stocks : List Stock)
    (budget : ℚ) (hb : 0 ≤ budget) (hpos : ∀ e ∈ portfolio, 1 ≤ e.2) :
    calculate_portfolio_cost (force_within_budget portfolio stocks budget) stocks ≤ budget :=
  (forceWithinBudgetGo_spec stocks budget hb (sharesNat portfolio + 1) portfolio hpos
    (by omega)).1

theorem force_within_budget_pos (portfolio : List (String × Int)) (stocks : List Stock)
    (budget : ℚ) (hb : 0 ≤ budget) (hpos : ∀ e ∈ portfolio, 1 ≤ e.2) :
    ∀ e ∈ force_within_budget portfolio stocks budget, 1 ≤ e.2 :=
  (forceWithinBudgetGo_spec stocks budget hb (sharesNat portfolio + 1) portfolio hpos
    (by omega)).2

theorem force_within_budget_tickers (portfolio : List (String × Int)) (stocks : List Stock)
    (budget : ℚ) : ∀ e ∈ force_within_budget portfolio stocks budget,
    ∃ e₀ ∈ portfolio, e₀.1 = e.1 :=
  forceWithinBudgetGo_tickers stocks budget (sharesNat portfolio + 1) portfolio

theorem forceWithinBudgetGo_length (stocks : List Stock) (budget : ℚ) :
    ∀ (fuel : Nat) (p : List (String × Int)),
    (forceWithinBudgetGo stocks budget fuel p).length ≤ p.length := by
  intro fuel
  induction fuel with
  | zero => intro p; exact le_rfl
  | succ fuel ih =>
    intro p
    by_cases hc : budget < calculate_portfolio_cost p stocks
    · rcases hidx : lastMaxIdx p with _ | idx
      · simp [forceWithinBudgetGo, if_pos hc, hidx]
      · simp only [forceWithinBudgetGo, if_pos hc, hidx]
        by_cases hz : (p.getD idx ("", 0)).2 - 1 = 0
        · rw [if_pos hz]
          calc (forceWithinBudgetGo stocks budget fuel (p.eraseIdx idx)).length
              ≤ (p.eraseIdx idx).length := ih _
            _ ≤ p.length := by rw [List.length_eraseIdx]; split <;> omega
        · rw [if_neg hz]
          calc (forceWithinBudgetGo stocks budget fuel
                (p.set idx ((p.getD idx ("", 0)).1, (p.getD idx ("", 0)).2 - 1))).length
              ≤ (p.set idx ((p.getD idx ("", 0)).1, (p.getD idx ("", 0)).2 - 1)).length := ih _
            _ = p.length := List.length_set p idx _
    · simp [forceWithinBudgetGo, if_neg hc]

theorem force_within_budget_length (portfolio : List (String × Int)) (stocks : List Stock)
    (budget : ℚ) : (force_within_budget portfolio stocks budget).length ≤ portfolio.length :=
  forceWithinBudgetGo_length stocks budget (sharesNat portfolio + 1) portfolio

/-! ### Structure of the greedy portfolio -/

theorem greedyCore_pos (stocks : List Stock) (budget : ℚ) :
    ∀ e ∈ (greedyCore stocks budget).1, 1 ≤ e.2 := by
  intro e he
  simp only [greedyCore] at he
  split at he
  · simp at he
  · obtain ⟨a, _, ha⟩ := List.mem_filterMap.mp he
    split at ha
    · injection ha with ha
      rw [← ha]
      omega
    · exact absurd ha (by simp)

theorem greedyCore_tickers (stocks : List Stock) (budget : ℚ) :
    ∀ e ∈ (greedyCore stocks budget).1,
    ∃ s ∈ stocks, s.ticker = e.1 ∧ hasNegativeReturn s = false := by
  intro e he
  simp only [greedyCore] at he
  split at he
  · simp at he
  · obtain ⟨a, hmem, ha⟩ := List.mem_filterMap.mp he
    have has : a.1 ∈ stocks.filter
        (fun s => s.get_current_price ≤ budget ∧ ¬ hasNegativeReturn s) := by
      have h1 := (List.of_mem_zip hmem).1
      have h2 := (List.take_sublist _ _).mem h1
      exact (List.mergeSort_perm _ _).subset h2
    have hpred := List.of_mem_filter has
    have hmem' := List.mem_of_mem_filter has
    simp only [decide_eq_true_eq, Bool.and_eq_true, Bool.not_eq_true', decide_eq_false_iff_not,
      Bool.not_eq_true, decide_eq_true_eq] at hpred
    refine ⟨a.1, hmem', ?_, ?_⟩
    · split at ha
      · injection ha with ha; rw [← ha]
      · exact absurd ha (by simp)
    · rcases hpred with ⟨_, hneg⟩
      simpa using hneg

theorem build_greedy_portfolio_pos (stocks : List Stock) (budget : ℚ) (hb : 0 ≤ budget) :
    ∀ e ∈ build_greedy_portfolio stocks budget, 1 ≤ e.2 := by
  intro e he
  rw [build_greedy_portfolio] at he
  split at he
  · exact force_within_budget_pos _ stocks budget hb (greedyCore_pos stocks budget) e he
  · exact greedyCore_pos stocks budget e he

theorem build_greedy_portfolio_cost (stocks : List Stock) (budget : ℚ) (hb : 0 ≤ budget) :
    calculate_portfolio_cost (build_greedy_portfolio stocks budget) stocks ≤ budget := by
  rw [build_greedy_portfolio]
  split
  · exact force_within_budget_cost _ stocks budget hb (greedyCore_pos stocks budget)
  · next h =>
    rw [validate_budget, not_not] at h
    simpa using h

theorem build_greedy_portfolio_tickers (stocks : List Stock) (budget : ℚ) :
    ∀ e ∈ build_greedy_portfolio stocks budget,
    ∃ s ∈ stocks, s.ticker = e.1 ∧ hasNegativeReturn s = false := by
  intro e he
  rw [build_greedy_portfolio] at he
  split at he
  · obtain ⟨e₀, he₀, heq⟩ := force_within_budget_tickers _ stocks budget e he
    obtain ⟨s, hs, hst, hsneg⟩ := greedyCore_tickers stocks budget e₀ he₀
    exact ⟨s, hs, by rw [hst, heq], hsneg⟩
  · exact greedyCore_tickers stocks budget e he

/-! ### Structure of leftover-budget deployment -/

theorem bumpQty_pos : ∀ (p : List (String × Int)) (t : String) (q : Int),
    (∀ e ∈ p, 1 ≤ e.2) → 1 ≤ q → ∀ e ∈ bumpQty p t q, 1 ≤ e.2 := by
  intro p
  induction p with
  | nil =>
    intro t q _ hq e he
    simp only [bumpQty, List.mem_singleton] at he
    rw [he]; exact hq
  | cons a rest ih =>
    intro t q hpos hq e he
    simp only [bumpQty] at he
    split at he
    · rcases List.mem_cons.mp he with h | h
      · rw [h]
        have := hpos a (List.mem_cons_self a rest)
        simp only
        omega
      · exact hpos e (List.mem_cons_of_mem a h)
    · rcases List.mem_cons.mp he with h | h
      · rw [h]; exact hpos a (List.mem_cons_self a rest)
      · exact ih t q (fun e' he' => hpos e' (List.mem_cons_of_mem a he')) hq e h

theorem bumpQty_tickers : ∀ (p : List (String × Int)) (t : String) (q : Int),
    ∀ e ∈ bumpQty p t q, (∃ e₀ ∈ p, e₀.1 = e.1) ∨ e.1 = t := by
  intro p
  induction p with
  | nil =>
    intro t q e he
    simp only [bumpQty, List.mem_singleton] at he
    rw [he]
    exact Or.inr rfl
  | cons a rest ih =>
    intro t q e he
    simp only [bumpQty] at he
    split at he
    · rcases List.mem_cons.mp he with h | h
      · exact Or.inl ⟨a, List.mem_cons_self a rest, by rw [h]⟩
      · exact Or.inl ⟨e, List.mem_cons_of_mem a h, rfl⟩
    · rcases List.mem_cons.mp he with h | h
      · exact Or.inl ⟨a, List.mem_cons_self a rest, by rw [h]⟩
      · rcases ih t q e h with ⟨e₀, he₀, heq⟩ | heq
        · exact Or.inl ⟨e₀, List.mem_cons_of_mem a he₀, heq⟩
        · exact Or.inr heq

theorem deployGo_pos (budget : ℚ) : ∀ (cands : List (Stock × ℚ))
    (p : List (String × Int)) (rem : ℚ), (∀ e ∈ p, 1 ≤ e.2) →
    ∀ e ∈ (deployGo budget cands p rem).1, 1 ≤ e.2 := by
  intro cands
  induction cands with
  | nil => intro p rem hpos e he; exact hpos e he
  | cons c rest ih =>
    intro p rem hpos e he
    simp only [deployGo] at he
    split_ifs at he with h1 h2 h3 h4 h5
    · exact ih p rem hpos e he
    · exact ih p rem hpos e he
    · exact bumpQty_pos p c.1.ticker _ hpos (by omega) e he
    · exact ih _ _ (bumpQty_pos p c.1.ticker _ hpos (by omega)) e he
    · exact hpos e he
    · exact ih p rem hpos e he

theorem deployGo_tickers (budget : ℚ) : ∀ (cands : List (Stock × ℚ))
    (p : List (String × Int)) (rem : ℚ),
    ∀ e ∈ (deployGo budget cands p rem).1,
    (∃ e₀ ∈ p, e₀.1 = e.1) ∨ ∃ c ∈ cands, c.1.ticker = e.1 := by
  intro cands
  induction cands with
  | nil => intro p rem e he; exact Or.inl ⟨e, he, rfl⟩
  | cons c rest ih =>
    intro p rem e he
    have hbump : ∀ e', e' ∈ bumpQty p c.1.ticker ⌊rem / c.2⌋ →
        (∃ e₀ ∈ p, e₀.1 = e'.1) ∨ ∃ c' ∈ c :: rest, c'.1.ticker = e'.1 := by
      intro e' he'
      rcases bumpQty_tickers p c.1.ticker _ e' he' with h | h
      · exact Or.inl h
      · exact Or.inr ⟨c, List.mem_cons_self c rest, h.symm⟩
    have hrest : ∀ (p' : List (String × Int)) (rem' : ℚ),
        (∀ e', e' ∈ p' → (∃ e₀ ∈ p, e₀.1 = e'.1) ∨ ∃ c' ∈ c :: rest, c'.1.ticker = e'.1) →
        e ∈ (deployGo budget rest p' rem').1 →
        (∃ e₀ ∈ p, e₀.1 = e.1) ∨ ∃ c' ∈ c :: rest, c'.1.ticker = e.1 := by
      intro p' rem' hsrc he'
      rcases ih p' rem' e he' with ⟨e₀, he₀, heq⟩ | ⟨c', hc', heq⟩
      · rcases hsrc e₀ he₀ with ⟨e₁, he₁, heq₁⟩ | ⟨c', hc', heq₁⟩
        · exact Or.inl ⟨e₁, he₁, by rw [heq₁, heq]⟩
        · exact Or.inr ⟨c', hc', by rw [heq₁, heq]⟩
      · exact Or.inr ⟨c', List.mem_cons_of_mem c hc', heq⟩
    have hid : ∀ e', e' ∈ p → (∃ e₀ ∈ p, e₀.1 = e'.1) ∨ ∃ c' ∈ c :: rest, c'.1.ticker = e'.1 :=
      fun e' he' => Or.inl ⟨e', he', rfl⟩
    simp only [deployGo] at he
    split_ifs at he with h1 h2 h3 h4 h5
    · exact hrest p rem hid he
    · exact hrest p rem hid he
    · exact hbump e he
    · exact hrest _ _ hbump he
    · exact Or.inl ⟨e, he, rfl⟩
    · exact hrest p rem hid he

theorem minByPriceGo_mem : ∀ (l : List (Stock × ℚ)) (best : Stock × ℚ),
    minByPriceGo l best = best ∨ minByPriceGo l best ∈ l := by
  intro l
  induction l with
  | nil => intro best; exact Or.inl rfl
  | cons e rest ih =>
    intro best
    simp only [minByPriceGo]
    split_ifs with h
    · rcases ih e with h' | h'
      · exact Or.inr (by rw [h']; exact List.mem_cons_self e rest)
      · exact Or.inr (List.mem_cons_of_mem e h')
    · rcases ih best with h' | h'
      · exact Or.inl h'
      · exact Or.inr (List.mem_cons_of_mem e h')

theorem minByPrice_mem {l : List (Stock × ℚ)} {m : Stock × ℚ}
    (h : minByPrice l = some m) : m ∈ l := by
  cases l with
  | nil => simp [minByPrice] at h
  | cons e rest =>
    simp only [minByPrice] at h
    injection h with h
    rcases minByPriceGo_mem rest e with h' | h'
    · rw [← h, h']; exact List.mem_cons_self e rest
    · rw [← h]; exact List.mem_cons_of_mem e h'

theorem deploy_remaining_budget_pos (portfolio : List (String × Int)) (remaining budget : ℚ)
    (stocks : List Stock) (hpos : ∀ e ∈ portfolio, 1 ≤ e.2) :
    ∀ e ∈ deploy_remaining_budget portfolio remaining budget stocks, 1 ≤ e.2 := by
  intro e he
  simp only [deploy_remaining_budget] at he
  split_ifs at he with h1 h2
  · exact hpos e he
  · split at he
    · exact hpos e he
    · split_ifs at he with h3
      · exact hpos e he
      · exact deployGo_pos budget _ portfolio remaining hpos e he
  · exact deployGo_pos budget _ portfolio remaining hpos e he

theorem deploy_remaining_budget_tickers (portfolio : List (String × Int))
    (remaining budget : ℚ) (stocks : List Stock) :
    ∀ e ∈ deploy_remaining_budget portfolio remaining budget stocks,
    (∃ e₀ ∈ portfolio, e₀.1 = e.1) ∨
    ∃ s ∈ stocks, s.ticker = e.1 ∧ hasNegativeReturn s = false := by
  intro e he
  simp only [deploy_remaining_budget] at he
  have hfromPriced : ∀ (pred : Stock × ℚ → Bool) (c : Stock × ℚ),
      c ∈ (stocks.map (fun s => (s, s.get_current_price))).filter pred →
      c.1 ∈ stocks ∧ pred c = true := by
    intro pred c hc
    have hmem := List.mem_of_mem_filter hc
    have hpred := List.of_mem_filter hc
    obtain ⟨s, hs, hmap⟩ := List.mem_map.mp hmem
    exact ⟨by rw [← hmap]; exact hs, hpred⟩
  split_ifs at he with h1 h2
  · exact Or.inl ⟨e, he, rfl⟩
  · split at he
    · exact Or.inl ⟨e, he, rfl⟩
    · next m hm =>
      split_ifs at he with h3
      · exact Or.inl ⟨e, he, rfl⟩
      · rcases deployGo_tickers budget _ portfolio remaining e he with h | ⟨c, hc, heq⟩
        · exact Or.inl h
        · have hc' := (List.mergeSort_perm [m] _).subset hc
          simp only [List.mem_singleton] at hc'
          rw [hc'] at heq
          obtain ⟨hs, hpred⟩ := hfromPriced _ m (minByPrice_mem hm)
          simp only [decide_eq_true_eq] at hpred
          exact Or.inr ⟨m.1, hs, heq, by simpa using hpred.2⟩
  · rcases deployGo_tickers budget _ portfolio remaining e he with h | ⟨c, hc, heq⟩
    · exact Or.inl h
    · have hc' := (List.mergeSort_perm _ _).subset hc
      obtain ⟨hs, hpred⟩ := hfromPriced _ c hc'
      simp only [decide_eq_true_eq] at hpred
      exact Or.inr ⟨c.1, hs, heq, by simpa using hpred.2.2⟩

/-! ### Structure of the concentrated and proportional loops -/

theorem concentratedGo_pos (alloc_budget : ℚ) : ∀ (l : List Stock) (i : Nat)
    (acc : List (String × Int)) (allocated : ℚ), (∀ e ∈ acc, 1 ≤ e.2) →
    ∀ e ∈ (concentratedGo alloc_budget l i acc allocated).1, 1 ≤ e.2 := by
  intro l
  induction l with
  | nil => intro i acc allocated hacc e he; exact hacc e he
  | cons s rest ih =>
    intro i acc allocated hacc e he
    simp only [concentratedGo] at he
    split_ifs at he with h1 h2 h3 h4
    · exact ih _ _ _ hacc e he
    · exact ih _ _ _ hacc e he
    · refine ih _ _ _ ?_ e he
      intro e' he'
      rcases List.mem_append.mp he' with h | h
      · exact hacc e' h
      · simp only [List.mem_singleton] at h
        rw [h]
        show 1 ≤ RANK_QUANTITIES.getD i 1
        omega
    · refine ih _ _ _ ?_ e he
      intro e' he'
      rcases List.mem_append.mp he' with h | h
      · exact hacc e' h
      · simp only [List.mem_singleton] at h
        rw [h]
        show 1 ≤ ⌊max (alloc_budget - allocated) 0 / s.get_current_price⌋
        omega
    · exact ih _ _ _ hacc e he

theorem concentratedGo_tickers (alloc_budget : ℚ) : ∀ (l : List Stock) (i : Nat)
    (acc : List (String × Int)) (allocated : ℚ),
    ∀ e ∈ (concentratedGo alloc_budget l i acc allocated).1,
    (∃ e₀ ∈ acc, e₀.1 = e.1) ∨ ∃ s ∈ l, s.ticker = e.1 := by
  intro l
  induction l with
  | nil => intro i acc allocated e he; exact Or.inl ⟨e, he, rfl⟩
  | cons s rest ih =>
    intro i acc allocated e he
    have hstep : ∀ (q : Int), e ∈ (concentratedGo alloc_budget rest (i + 1)
        (acc ++ [(s.ticker, q)]) (allocated + (q : ℚ) * s.get_current_price)).1 →
        (∃ e₀ ∈ acc, e₀.1 = e.1) ∨ ∃ s' ∈ s :: rest, s'.ticker = e.1 := by
      intro q hq
      rcases ih _ _ _ e hq with ⟨e₀, he₀, heq⟩ | ⟨s', hs', heq⟩
      · rcases List.mem_append.mp he₀ with h | h
        · exact Or.inl ⟨e₀, h, heq⟩
        · simp only [List.mem_singleton] at h
          refine Or.inr ⟨s, List.mem_cons_self s rest, ?_⟩
          rw [← heq, h]
      · exact Or.inr ⟨s', List.mem_cons_of_mem s hs', heq⟩
    have hskip : e ∈ (concentratedGo alloc_budget rest (i + 1) acc allocated).1 →
        (∃ e₀ ∈ acc, e₀.1 = e.1) ∨ ∃ s' ∈ s :: rest, s'.ticker = e.1 := by
      intro hq
      rcases ih _ _ _ e hq with h | ⟨s', hs', heq⟩
      · exact Or.inl h
      · exact Or.inr ⟨s', List.mem_cons_of_mem s hs', heq⟩
    simp only [concentratedGo] at he
    split_ifs at he with h1 h2 h3 h4
    · exact hskip he
    · exact hskip he
    · exact hstep _ he
    · exact hstep _ he
    · exact hskip he

theorem proportionalGo_pos (alloc_budget : ℚ) (combined : List ℚ) :
    ∀ (l : List Stock) (i : Nat) (acc : List (String × Int)) (allocated : ℚ),
    (∀ e ∈ acc, 1 ≤ e.2) →
    ∀ e ∈ (proportionalGo alloc_budget combined l i acc allocated).1, 1 ≤ e.2 := by
  intro l
  induction l with
  | nil => intro i acc allocated hacc e he; exact hacc e he
  | cons s rest ih =>
    intro i acc allocated hacc e he
    simp only [proportionalGo] at he
    split_ifs at he with h1 h2
    · refine ih _ _ _ ?_ e he
      intro e' he'
      rcases List.mem_append.mp he' with h | h
      · exact hacc e' h
      · simp only [List.mem_singleton] at h
        rw [h]
        show 1 ≤ ⌊alloc_budget * combined.getD i 0 / s.get_current_price⌋
        omega
    · exact ih _ _ _ hacc e he
    · exact ih _ _ _ hacc e he

theorem proportionalGo_tickers (alloc_budget : ℚ) (combined : List ℚ) :
    ∀ (l : List Stock) (i : Nat) (acc : List (String × Int)) (allocated : ℚ),
    ∀ e ∈ (proportionalGo alloc_budget combined l i acc allocated).1,
    (∃ e₀ ∈ acc, e₀.1 = e.1) ∨ ∃ s ∈ l, s.ticker = e.1 := by
  intro l
  induction l with
  | nil => intro i acc allocated e he; exact Or.inl ⟨e, he, rfl⟩
  | cons s rest ih =>
    intro i acc allocated e he
    have hskip : e ∈ (proportionalGo alloc_budget combined rest (i + 1) acc allocated).1 →
        (∃ e₀ ∈ acc, e₀.1 = e.1) ∨ ∃ s' ∈ s :: rest, s'.ticker = e.1 := by
      intro hq
      rcases ih _ _ _ e hq with h | ⟨s', hs', heq⟩
      · exact Or.inl h
      · exact Or.inr ⟨s', List.mem_cons_of_mem s hs', heq⟩
    simp only [proportionalGo] at he
    split_ifs at he with h1 h2
    · rcases ih _ _ _ e he with ⟨e₀, he₀, heq⟩ | ⟨s', hs', heq⟩
      · rcases List.mem_append.mp he₀ with h | h
        · exact Or.inl ⟨e₀, h, heq⟩
        · simp only [List.mem_singleton] at h
          refine Or.inr ⟨s, List.mem_cons_self s rest, ?_⟩
          rw [← heq, h]
      · exact Or.inr ⟨s', List.mem_cons_of_mem s hs', heq⟩
    · exact hskip he
    · exact hskip he

theorem finalizeWeighted_pos (stocks : List Stock) (ob allocated : ℚ) (hb : 0 ≤ ob)
    (portfolio : List (String × Int)) (hpos : ∀ e ∈ portfolio, 1 ≤ e.2) :
    ∀ e ∈ finalizeWeighted stocks ob allocated portfolio, 1 ≤ e.2 := by
  intro e he
  simp only [finalizeWeighted] at he
  split at he
  · have hdep : ∀ e' ∈ deploy_remaining_budget portfolio (max (ob - allocated) 0) ob stocks,
        1 ≤ e'.2 := deploy_remaining_budget_pos portfolio _ ob stocks hpos
    split at he
    · exact force_within_budget_pos _ stocks ob hb hdep e he
    · exact hdep e he
  · split at he
    · exact force_within_budget_pos _ stocks ob hb hpos e he
    · exact hpos e he

theorem finalizeWeighted_tickers (stocks : List Stock) (ob allocated : ℚ)
    (portfolio : List (String × Int)) :
    ∀ e ∈ finalizeWeighted stocks ob allocated portfolio,
    (∃ e₀ ∈ portfolio, e₀.1 = e.1) ∨ ∃ s ∈ stocks, s.ticker = e.1 := by
  intro e he
  simp only [finalizeWeighted] at he
  have hdep : ∀ e', e' ∈ deploy_remaining_budget portfolio (max (ob - allocated) 0) ob stocks →
      (∃ e₀ ∈ portfolio, e₀.1 = e'.1) ∨ ∃ s ∈ stocks, s.ticker = e'.1 := by
    intro e' he'
    rcases deploy_remaining_budget_tickers portfolio _ ob stocks e' he' with h | ⟨s, hs, h1, _⟩
    · exact Or.inl h
    · exact Or.inr ⟨s, hs, h1⟩
  split at he
  · split at he
    · obtain ⟨e₀, he₀, heq⟩ := force_within_budget_tickers _ stocks ob e he
      rcases hdep e₀ he₀ with ⟨e₁, he₁, heq₁⟩ | ⟨s, hs, heq₁⟩
      · exact Or.inl ⟨e₁, he₁, by rw [heq₁, heq]⟩
      · exact Or.inr ⟨s, hs, by rw [heq₁, heq]⟩
    · exact hdep e he
  · split at he
    · obtain ⟨e₀, he₀, heq⟩ := force_within_budget_tickers _ stocks ob e he
      exact Or.inl ⟨e₀, he₀, heq⟩
    · exact Or.inl ⟨e, he, rfl⟩

theorem build_weighted_portfolio_pos (ps : PointsStore) (concentrate : Bool)
    (stocks : List Stock) (ab : ℚ) (tp : Nat) (ob : ℚ) (hb : 0 ≤ ob) :
    ∀ e ∈ build_weighted_portfolio ps concentrate stocks ab tp ob, 1 ≤ e.2 := by
  intro e he
  simp only [build_weighted_portfolio] at he
  split at he
  · simp at he
  · cases concentrate with
    | true =>
      simp only [if_true, if_pos rfl] at he
      split at he
      · exact build_greedy_portfolio_pos stocks ob hb e he
      · exact finalizeWeighted_pos stocks ob _ hb _
          (concentratedGo_pos ab _ 0 [] 0 (by simp)) e he
    | false =>
      simp only [Bool.false_eq_true, if_false] at he
      exact finalizeWeighted_pos stocks ob _ hb _
        (proportionalGo_pos ab _ _ 0 [] 0 (by simp)) e he

theorem build_weighted_portfolio_tickers (ps : PointsStore) (concentrate : Bool)
    (stocks : List Stock) (ab : ℚ) (tp : Nat) (ob : ℚ) :
    ∀ e ∈ build_weighted_portfolio ps concentrate stocks ab tp ob,
    ∃ s ∈ stocks, s.ticker = e.1 := by
  intro e he
  have htake : ∀ s', s' ∈ stocks.take (min (min tp stocks.length) MAX_POSITIONS) →
      s' ∈ stocks := fun s' h => (List.take_sublist _ _).mem h
  simp only [build_weighted_portfolio] at he
  split at he
  · simp at he
  · cases concentrate with
    | true =>
      simp only [if_true, if_pos rfl] at he
      split at he
      · obtain ⟨s, hs, heq, _⟩ := build_greedy_portfolio_tickers stocks ob e he
        exact ⟨s, hs, heq⟩
      · rcases finalizeWeighted_tickers stocks ob _ _ e he with ⟨e₀, he₀, heq⟩ | h
        · rcases concentratedGo_tickers ab _ 0 [] 0 e₀ he₀ with ⟨e₁, he₁, _⟩ | ⟨s, hs, heq₁⟩
          · simp at he₁
          · exact ⟨s, htake s hs, by rw [heq₁, heq]⟩
        · exact h
    | false =>
      simp only [Bool.false_eq_true, if_false] at he
      rcases finalizeWeighted_tickers stocks ob _ _ e he with ⟨e₀, he₀, heq⟩ | h
      · rcases proportionalGo_tickers ab _ _ 0 [] 0 e₀ he₀ with ⟨e₁, he₁, _⟩ | ⟨s, hs, heq₁⟩
        · simp at he₁
        · exact ⟨s, htake s hs, by rw [heq₁, heq]⟩
      · exact h

theorem builderStep_pos (ps : PointsStore) (concentrate : Bool) (sorted : List Stock)
    (ab : ℚ) (tp : Nat) (budget : ℚ) (hb : 0 ≤ budget) :
    ∀ e ∈ (if ab < 5000 then build_greedy_portfolio sorted budget
      else build_weighted_portfolio ps concentrate sorted ab tp budget), 1 ≤ e.2 := by
  split
  · exact build_greedy_portfolio_pos sorted budget hb
  · exact build_weighted_portfolio_pos ps concentrate sorted ab tp budget hb

theorem builderStep_tickers (ps : PointsStore) (concentrate : Bool) (sorted : List Stock)
    (ab : ℚ) (tp : Nat) (budget : ℚ) :
    ∀ e ∈ (if ab < 5000 then build_greedy_portfolio sorted budget
      else build_weighted_portfolio ps concentrate sorted ab tp budget),
    ∃ s ∈ sorted, s.ticker = e.1 := by
  split
  · intro e he
    obtain ⟨s, hs, heq, _⟩ := build_greedy_portfolio_tickers sorted budget e he
    exact ⟨s, hs, heq⟩
  · exact build_weighted_portfolio_tickers ps concentrate sorted ab tp budget

theorem trimFinal_spec (stocks : List Stock) (budget : ℚ) (hb : 0 ≤ budget)
    (P : List (String × Int)) (hPpos : ∀ e ∈ P, 1 ≤ e.2) :
    calculate_portfolio_cost
      (if MAX_POSITIONS < P.length then
        (if ¬ validate_budget ((P.mergeSort
              (fun a b => lookupReturn stocks b.1 ≤ lookupReturn stocks a.1)).take
              MAX_POSITIONS) stocks budget then
          force_within_budget ((P.mergeSort
            (fun a b => lookupReturn stocks b.1 ≤ lookupReturn stocks a.1)).take
            MAX_POSITIONS) stocks budget
        else (P.mergeSort
          (fun a b => lookupReturn stocks b.1 ≤ lookupReturn stocks a.1)).take MAX_POSITIONS)
      else
        (if budget < calculate_portfolio_cost P stocks then
          force_within_budget P stocks budget
        else P)) stocks ≤ budget ∧
    (if MAX_POSITIONS < P.length then
        (if ¬ validate_budget ((P.mergeSort
              (fun a b => lookupReturn stocks b.1 ≤ lookupReturn stocks a.1)).take
              MAX_POSITIONS) stocks budget then
          force_within_budget ((P.mergeSort
            (fun a b => lookupReturn stocks b.1 ≤ lookupReturn stocks a.1)).take
            MAX_POSITIONS) stocks budget
        else (P.mergeSort
          (fun a b => lookupReturn stocks b.1 ≤ lookupReturn stocks a.1)).take MAX_POSITIONS)
      else
        (if budget < calculate_portfolio_cost P stocks then
          force_within_budget P stocks budget
        else P)).length ≤ MAX_POSITIONS := by
  have htrimpos : ∀ e ∈ (P.mergeSort
      (fun a b => lookupReturn stocks b.1 ≤ lookupReturn stocks a.1)).take MAX_POSITIONS,
      1 ≤ e.2 := fun e he =>
    hPpos e ((List.mergeSort_perm _ _).subset ((List.take_sublist _ _).mem he))
  have htrimlen : ((P.mergeSort
      (fun a b => lookupReturn stocks b.1 ≤ lookupReturn stocks a.1)).take
      MAX_POSITIONS).length ≤ MAX_POSITIONS := by
    rw [List.length_take]
    omega
  split
  · next hlen =>
    split
    · exact ⟨force_within_budget_cost _ stocks budget hb htrimpos,
        le_trans (force_within_budget_length _ stocks budget) htrimlen⟩
    · next hval =>
      rw [validate_budget, not_not, decide_eq_true_eq] at hval
      exact ⟨hval, htrimlen⟩
  · next hlen =>
    rw [not_lt] at hlen
    split
    · exact ⟨force_within_budget_cost _ stocks budget hb hPpos,
        le_trans (force_within_budget_length _ stocks budget) hlen⟩
    · next hcost => exact ⟨not_lt.mp hcost, hlen⟩

theorem trimFinal_tickers (stocks : List Stock) (budget : ℚ)
    (P : List (String × Int)) :
    ∀ e ∈ (if MAX_POSITIONS < P.length then
        (if ¬ validate_budget ((P.mergeSort
              (fun a b => lookupReturn stocks b.1 ≤ lookupReturn stocks a.1)).take
              MAX_POSITIONS) stocks budget then
          force_within_budget ((P.mergeSort
            (fun a b => lookupReturn stocks b.1 ≤ lookupReturn stocks a.1)).take
            MAX_POSITIONS) stocks budget
        else (P.mergeSort
          (fun a b => lookupReturn stocks b.1 ≤ lookupReturn stocks a.1)).take MAX_POSITIONS)
      else
        (if budget < calculate_portfolio_cost P stocks then
          force_within_budget P stocks budget
        else P)), ∃ e₀ ∈ P, e₀.1 = e.1 := by
  have htrim : ∀ e, e ∈ (P.mergeSort
      (fun a b => lookupReturn stocks b.1 ≤ lookupReturn stocks a.1)).take MAX_POSITIONS →
      e ∈ P := fun e he => (List.mergeSort_perm _ _).subset ((List.take_sublist _ _).mem he)
  intro e he
  split at he
  · split at he
    · obtain ⟨e₀, he₀, heq⟩ := force_within_budget_tickers _ stocks budget e he
      exact ⟨e₀, htrim e₀ he₀, heq⟩
    · exact ⟨e, htrim e he, rfl⟩
  · split at he
    · exact force_within_budget_tickers _ stocks budget e he
    · exact ⟨e, he, rfl⟩

/-- C1 (amended: `0 ≤ budget`): every allocation returned by
`build_portfolio` — on all construction paths: greedy, concentrated,
proportional (the `concentrate` switch quantified), and the trim/repair
paths — costs at most the budget and holds at most `MAX_POSITIONS = 12`
distinct positions. -/
theorem c1_budget_and_position_caps (ps : PointsStore) (concentrate : Bool)
    (stocks : List Stock) (budget : ℚ) (risk_level : RiskLevel) (hb : 0 ≤ budget) :
    calculate_portfolio_cost (buildPortfolioWith ps concentrate stocks budget risk_level)
      stocks ≤ budget ∧
    (buildPortfolioWith ps concentrate stocks budget risk_level).length ≤ MAX_POSITIONS := by
  by_cases h1 : stocks = []
  · simp only [buildPortfolioWith, if_pos h1]
    exact ⟨by rw [calculate_portfolio_cost_nil]; exact hb, by norm_num [MAX_POSITIONS]⟩
  · by_cases h2 : budget ≤ 0
    · simp only [buildPortfolioWith, if_neg h1, if_pos h2]
      exact ⟨by rw [calculate_portfolio_cost_nil]; exact hb, by norm_num [MAX_POSITIONS]⟩
    · simp only [buildPortfolioWith, if_neg h1, if_neg h2]
      exact trimFinal_spec stocks budget hb _
        (builderStep_pos ps concentrate _ _ _ budget hb)

/-- A sample stock with a positive historical return. -/
def exStockPos : Stock :=
  { ticker := "A", price := 3, sectors := [], volatility := 0, name := "",
    market_cap := 0, first_trading_date := none, last_trading_date := none,
    historical_return := some 10, historical_start_price := none }

/-- The same ticker as `exStockPos` but with a negative historical return. -/
def exStockNegDup : Stock :=
  { ticker := "A", price := 3, sectors := [], volatility := 0, name := "",
    market_cap := 0, first_trading_date := none, last_trading_date := none,
    historical_return := some (-5), historical_start_price := none }

/-- A distinct-ticker stock with a negative historical return. -/
def exStockNegB : Stock :=
  { ticker := "B", price := 1, sectors := [], volatility := 0, name := "",
    market_cap := 0, first_trading_date := none, last_trading_date := none,
    historical_return := some (-5), historical_start_price := none }

/-- Concrete instantiation of `c1_budget_and_position_caps` at a one-stock
universe and budget 100. -/
theorem c1_budget_and_position_caps_witness :
    calculate_portfolio_cost
      (buildPortfolioWith (emptyPointsStore 0) true [exStockPos] 100 .aggressive)
      [exStockPos] ≤ 100 ∧
    (buildPortfolioWith (emptyPointsStore 0) true [exStockPos] 100 .aggressive).length ≤
      MAX_POSITIONS :=
  c1_budget_and_position_caps (emptyPointsStore 0) true [exStockPos] 100 .aggressive
    (by norm_num)

/-- C1 counterexample to the claim as stated (quantified over every budget):
at the negative budget `-1` the engine returns the empty allocation, whose
cost `0` exceeds the budget, so `total_cost ≤ budget` fails. -/
theorem c1_counterexample :
    ¬ calculate_portfolio_cost
        (build_portfolio (emptyPointsStore 0) [] (-1) .moderate) [] ≤ -1 := by
  have h : build_portfolio (emptyPointsStore 0) [] (-1) .moderate = [] := rfl
  rw [h, calculate_portfolio_cost_nil]
  norm_num

/-- C2 (amended: pairwise-distinct tickers): if the tickers of the eligible
list are pairwise distinct, then no security with a negative realized
historical return ever appears in an allocation produced by the engine, on
any construction path. -/
theorem c2_no_negative_return_tickers (ps : PointsStore) (concentrate : Bool)
    (stocks : List Stock) (budget : ℚ) (risk_level : RiskLevel) (s' : Stock) (r : ℚ)
    (hnodup : (stocks.map Stock.ticker).Nodup) (hs' : s' ∈ stocks)
    (hr : s'.historical_return = some r) (hneg : r < 0) :
    s'.ticker ∉ (buildPortfolioWith ps concentrate stocks budget risk_level).map Prod.fst := by
  intro hmem
  obtain ⟨e, he, heq⟩ := List.mem_map.mp hmem
  have hsrc : ∃ s ∈ stocks, s.ticker = e.1 ∧ hasNegativeReturn s = false := by
    by_cases h1 : stocks = []
    · rw [h1] at hs'; simp at hs'
    · by_cases h2 : budget ≤ 0
      · simp only [buildPortfolioWith, if_neg h1, if_pos h2] at he
        simp at he
      · simp only [buildPortfolioWith, if_neg h1, if_neg h2] at he
        obtain ⟨e₀, he₀, heq₀⟩ := trimFinal_tickers stocks budget _ e he
        obtain ⟨s, hs, heqs⟩ := builderStep_tickers ps concentrate _ _ _ budget e₀ he₀
        have hmem' := List.mem_of_mem_filter hs
        have hpred := List.of_mem_filter hs
        simp only [decide_eq_true_eq, Bool.not_eq_true', decide_eq_false_iff_not,
          Bool.not_eq_true] at hpred
        refine ⟨s, (List.mergeSort_perm stocks returnRankLe).subset ?_, by rw [heqs, heq₀],
          by simpa using hpred⟩
        exact hmem'
  obtain ⟨s, hs, hticker, hok⟩ := hsrc
  have hss' : s = s' := List.inj_on_of_nodup_map hnodup hs hs' (by rw [hticker, ← heq])
  rw [hss'] at hok
  rw [hasNegativeReturn, hr] at hok
  simp only [decide_eq_false_iff_not, not_lt] at hok
  exact absurd hneg (not_lt.mpr hok)

/-- Concrete instantiation of `c2_no_negative_return_tickers`: with distinct
tickers A (return +10) and B (return −5), ticker B never appears in the
allocation. -/
theorem c2_no_negative_return_tickers_witness :
    exStockNegB.ticker ∉
      (buildPortfolioWith (emptyPointsStore 0) true [exStockPos, exStockNegB] 4
        .moderate).map Prod.fst :=
  c2_no_negative_return_tickers (emptyPointsStore 0) true [exStockPos, exStockNegB] 4
    .moderate exStockNegB (-5) (by decide) (by decide) rfl (by norm_num)

/-- C2 counterexample to the claim as stated: the eligible list may contain
two securities with the same ticker, one with a positive and one with a
negative return.  The negative-return security `exStockNegDup` is eligible
and has `historical_return = some (-5) < 0`, yet its ticker "A" appears in
the allocation (bought for the positive-return duplicate). -/
theorem c2_counterexample :
    exStockNegDup ∈ [exStockPos, exStockNegDup] ∧
    exStockNegDup.historical_return = some (-5) ∧ ((-5 : ℚ) < 0) ∧
    exStockNegDup.ticker ∈
      (build_portfolio (emptyPointsStore 0) [exStockPos, exStockNegDup] 4
        .moderate).map Prod.fst := by
  have hAprice : exStockPos.price = 3 := rfl
  have hAtick : exStockPos.ticker = "A" := rfl
  have hAret : exStockPos.historical_return = some 10 := rfl
  have hAneg : hasNegativeReturn exStockPos = false := rfl
  have hBtick : exStockNegDup.ticker = "A" := rfl
  have hBret : exStockNegDup.historical_return = some (-5) := rfl
  have hBneg : hasNegativeReturn exStockNegDup = true := rfl
  have hsps : greedySecondPass [exStockPos] 10000 [1] 1 0 0 = ([1], 1, 1) := by
    rw [show (10000 : Nat) = 9999 + 1 from rfl, greedySecondPass.eq_2]
    norm_num [Stock.get_current_price, hAprice]
  have hcore : greedyCore [exStockPos] 4 = ([("A", 1)], 1, 1) := by
    norm_num [greedyCore, hAneg, Stock.get_current_price, hAprice, hAtick,
      MAX_POSITIONS, List.mergeSort, greedyFirstPass, hsps, MAX_GREEDY_ITERATIONS,
      List.filterMap_cons]
  have hgp : build_greedy_portfolio [exStockPos] 4 = [("A", 1)] := by
    norm_num [build_greedy_portfolio, hcore, validate_budget, calculate_portfolio_cost,
      List.find?, hAtick, hAprice, Stock.get_current_price]
  have hbp : build_portfolio (emptyPointsStore 0) [exStockPos, exStockNegDup] 4
      .moderate = [("A", 1)] := by
    have hne : ([exStockPos, exStockNegDup] : List Stock) ≠ [] := by simp
    norm_num [build_portfolio, buildPortfolioWith, CONCENTRATE_ALLOCATION,
      budget_spend_fraction, BUDGET_SPEND_FRACTION, sortStocksByReturn, List.mergeSort,
      returnRankLe, hAret, hBret, hAneg, hBneg, hgp, MAX_POSITIONS,
      validate_budget, calculate_portfolio_cost, List.find?, hAtick, hAprice,
      Stock.get_current_price, hne]
  refine ⟨by decide, rfl, by norm_num, ?_⟩
  rw [hbp]
  simp [exStockNegDup]

/-- C3 (amended): when the budget is non-positive, allocation does not
proceed — `build_portfolio` returns immediately (logging an error) with the
empty allocation; the rejection is represented as an ordinary empty result,
not as a distinct error value. -/
theorem c3_nonpositive_budget_returns_empty (ps : PointsStore) (concentrate : Bool)
    (stocks : List Stock) (budget : ℚ) (risk_level : RiskLevel) (h : budget ≤ 0) :
    buildPortfolioWith ps concentrate stocks budget risk_level = [] := by
  by_cases h1 : stocks = []
  · simp [buildPortfolioWith, h1]
  · simp [buildPortfolioWith, h1, h]

/-- Concrete instantiation of `c3_nonpositive_budget_returns_empty` at
budget `-5`. -/
theorem c3_nonpositive_budget_returns_empty_witness :
    buildPortfolioWith (emptyPointsStore 0) true [exStockPos] (-5) .aggressive = [] :=
  c3_nonpositive_budget_returns_empty (emptyPointsStore 0) true [exStockPos] (-5)
    .aggressive (by norm_num)

/-- C3 counterexample to "the violation is a hard stop (an outright
rejection / error), not a result that is merely filtered to an empty
allocation": `build_portfolio` has no error channel; a budget-violating call
returns the plain empty allocation, indistinguishable from the ordinary
filtered-to-empty result of a positive-budget call on an empty universe. -/
theorem c3_counterexample :
    build_portfolio (emptyPointsStore 0) [exStockPos] (-5) .aggressive = [] ∧
    build_portfolio (emptyPointsStore 0) [] 100 .aggressive = [] ∧
    build_portfolio (emptyPointsStore 0) [exStockPos] (-5) .aggressive =
      build_portfolio (emptyPointsStore 0) [] 100 .aggressive := by
  have h1 : build_portfolio (emptyPointsStore 0) [exStockPos] (-5) .aggressive = [] := by
    have hne : ([exStockPos] : List Stock) ≠ [] := by simp
    norm_num [build_portfolio, buildPortfolioWith, hne]
  have h2 : build_portfolio (emptyPointsStore 0) [] 100 .aggressive = [] := rfl
  exact ⟨h1, h2, by rw [h1, h2]⟩

/-- The ordering the ranking comparator of `build_portfolio` actually
enforces between consecutively ranked stocks: historical return descending
when both are present, return-bearing stocks before return-free ones, and
ascending volatility only when both lack a return.  (Two stocks with equal
present returns are unconstrained: the comparator reports them equal and the
stable sort keeps their input order.) -/
def rankRel (a b : Stock) : Prop :=
  match a.historical_return, b.historical_return with
  | some ra, some rb => rb ≤ ra
  | some _, none => True
  | none, some _ => False
  | none, none => a.volatility ≤ b.volatility

theorem returnRankLe_iff (a b : Stock) : returnRankLe a b = true ↔ rankRel a b := by
  rw [returnRankLe, rankRel]
  rcases a.historical_return with _ | ra <;> rcases b.historical_return with _ | rb <;>
    simp

theorem returnRankLe_trans (a b c : Stock) (h1 : returnRankLe a b = true)
    (h2 : returnRankLe b c = true) : returnRankLe a c = true := by
  rw [returnRankLe_iff] at h1 h2 ⊢
  rw [rankRel] at h1 h2 ⊢
  rcases ha : a.historical_return with _ | ra <;>
    rcases hb : b.historical_return with _ | rb <;>
    rcases hc : c.historical_return with _ | rc <;>
    simp only [ha, hb, hc] at h1 h2 ⊢ <;>
    first
      | trivial
      | exact h1.elim
      | exact h2.elim
      | exact le_trans h2 h1
      | exact le_trans h1 h2

theorem returnRankLe_total (a b : Stock) :
    (returnRankLe a b || returnRankLe b a) = true := by
  rw [Bool.or_eq_true, returnRankLe_iff, returnRankLe_iff]
  rw [rankRel, rankRel]
  rcases ha : a.historical_return with _ | ra <;>
    rcases hb : b.historical_return with _ | rb <;>
    simp only [ha, hb] <;>
    first
      | exact Or.inl trivial
      | exact Or.inr trivial
      | exact le_total b.volatility a.volatility |>.symm
      | exact le_total rb ra

/-- C4 (amended): the ranking of `build_portfolio` sorts by realized
historical return descending; securities lacking a return sort after those
that have one; two securities both lacking a return are ordered by ascending
volatility; two securities with equal present returns compare as equal (no
volatility tie-break; the stable sort keeps their input order). -/
theorem c4_ranking_order (stocks : List Stock) :
    (sortStocksByReturn stocks).Pairwise rankRel := by
  have h := List.sorted_mergeSort returnRankLe_trans returnRankLe_total stocks
  rw [sortStocksByReturn]
  exact h.imp (fun hab => (returnRankLe_iff _ _).mp hab)

/-- A stock with return 5 and high volatility. -/
def exStockEqHighVol : Stock :=
  { ticker := "H", price := 1, sectors := [], volatility := 9, name := "",
    market_cap := 0, first_trading_date := none, last_trading_date := none,
    historical_return := some 5, historical_start_price := none }

/-- A stock with the same return 5 and lower volatility. -/
def exStockEqLowVol : Stock :=
  { ticker := "L", price := 1, sectors := [], volatility := 1, name := "",
    market_cap := 0, first_trading_date := none, last_trading_date := none,
    historical_return := some 5, historical_start_price := none }

/-- C4 counterexample to the claimed tie-break: two securities with equal
historical returns are NOT reordered by ascending volatility — the
higher-volatility stock listed first stays first. -/
theorem c4_counterexample :
    exStockEqHighVol.historical_return = exStockEqLowVol.historical_return ∧
    exStockEqLowVol.volatility < exStockEqHighVol.volatility ∧
    sortStocksByReturn [exStockEqHighVol, exStockEqLowVol] =
      [exStockEqHighVol, exStockEqLowVol] := by
  refine ⟨rfl, by norm_num [exStockEqLowVol, exStockEqHighVol], ?_⟩
  have h1 : exStockEqHighVol.historical_return = some 5 := rfl
  have h2 : exStockEqLowVol.historical_return = some 5 := rfl
  norm_num [sortStocksByReturn, List.mergeSort, returnRankLe, h1, h2]

theorem greedyFirstPass_rem : ∀ (l : List Stock) (rem : ℚ), 0 ≤ rem →
    0 ≤ (greedyFirstPass l rem).2 := by
  intro l
  induction l with
  | nil => intro rem h; exact h
  | cons s rest ih =>
    intro rem h
    simp only [greedyFirstPass]
    split_ifs with h1 h2
    · exact h
    · exact ih (rem - s.get_current_price) (by rcases h1 with ⟨h1, _⟩; linarith)
    · exact ih rem h

theorem greedySecondPass_spec (aff : List Stock) : ∀ (fuel : Nat) (shares : List Int)
    (rem : ℚ) (idx counter : Nat), 0 ≤ rem →
    0 ≤ (greedySecondPass aff fuel shares rem idx counter).2.1 ∧
    (greedySecondPass aff fuel shares rem idx counter).2.2 ≤ counter + fuel := by
  intro fuel
  induction fuel with
  | zero => intro shares rem idx counter h; exact ⟨h, le_rfl⟩
  | succ fuel ih =>
    intro shares rem idx counter h
    simp only [greedySecondPass]
    split_ifs with h1 h2 h3 h4 h5
    · refine ⟨h, ?_⟩
      show counter + 1 ≤ counter + (fuel + 1)
      omega
    · rcases h2 with ⟨h2a, h2b⟩
      refine ⟨?_, ?_⟩
      · show 0 ≤ rem - (aff.getD idx defaultStock).get_current_price
        linarith
      · show counter + 1 ≤ counter + (fuel + 1)
        omega
    · rcases h2 with ⟨h2a, h2b⟩
      obtain ⟨ha, hb⟩ := ih (shares.set idx (shares.getD idx 0 + 1))
        (rem - (aff.getD idx defaultStock).get_current_price) ((idx + 1) % aff.length)
        (counter + 1) (by linarith)
      exact ⟨ha, by omega⟩
    · refine ⟨h, ?_⟩
      show counter + 1 ≤ counter + (fuel + 1)
      omega
    · obtain ⟨ha, hb⟩ := ih shares rem ((idx + 1) % aff.length) (counter + 1) h
      exact ⟨ha, by omega⟩
    · refine ⟨h, ?_⟩
      show counter ≤ counter + (fuel + 1)
      omega

/-- C7: for a positive budget and a non-empty affordable candidate set, the
greedy fill terminates within the bounded iteration count (the exit value of
the source's `safety_counter` never exceeds `max_iterations = 10000`; the
embedding is a total function) and the remaining budget it leaves is never
negative. -/
theorem c7_greedy_termination (stocks : List Stock) (budget : ℚ) (hb : 0 < budget)
    (hne : stocks.filter
      (fun s => s.get_current_price ≤ budget ∧ ¬ hasNegativeReturn s) ≠ []) :
    0 ≤ (greedyCore stocks budget).2.1 ∧
    (greedyCore stocks budget).2.2 ≤ MAX_GREEDY_ITERATIONS := by
  simp only [greedyCore]
  split
  · exact ⟨le_of_lt hb, by norm_num [MAX_GREEDY_ITERATIONS]⟩
  · have hrem1 := greedyFirstPass_rem
      ((stocks.filter (fun s => s.get_current_price ≤ budget ∧
        ¬ hasNegativeReturn s)).mergeSort
        (fun a b => a.get_current_price ≤ b.get_current_price) |>.take MAX_POSITIONS)
      budget (le_of_lt hb)
    obtain ⟨ha, hc⟩ := greedySecondPass_spec _ MAX_GREEDY_ITERATIONS _ _ 0 0 hrem1
    exact ⟨ha, by simpa using hc⟩

/-- An affordable candidate stock for the C7 witness. -/
def exStockCheap : Stock :=
  { ticker := "C", price := 45, sectors := [], volatility := 0, name := "",
    market_cap := 0, first_trading_date := none, last_trading_date := none,
    historical_return := some 2, historical_start_price := none }

/-- A second affordable candidate stock for the C7 witness. -/
def exStockDear : Stock :=
  { ticker := "D", price := 120, sectors := [], volatility := 0, name := "",
    market_cap := 0, first_trading_date := none, last_trading_date := none,
    historical_return := some 1, historical_start_price := none }

/-- Concrete instantiation of `c7_greedy_termination`: budget 500 with two
affordable candidates leaves a non-negative remainder within the iteration
cap. -/
theorem c7_greedy_termination_witness :
    0 ≤ (greedyCore [exStockDear, exStockCheap] 500).2.1 ∧
    (greedyCore [exStockDear, exStockCheap] 500).2.2 ≤ MAX_GREEDY_ITERATIONS :=
  c7_greedy_termination [exStockDear, exStockCheap] 500 (by norm_num)
    (by
      norm_num [List.filter, hasNegativeReturn, Stock.get_current_price,
        exStockDear, exStockCheap]
      simp)

/-! ## Pre-submission validator and process loop (`src/main.rs`) -/

/-- Safety margin applied below budget before submission (`SUBMIT_MARGIN = 0.03`). -/
def SUBMIT_MARGIN : ℚ := 3/100

/-- The validator's current-price lookup: the source collects
`(ticker, current_price)` pairs into a `HashMap`, so with duplicate tickers
the last occurrence wins — hence the lookup over the reversed list. -/
def price_map_get (eligible : List Stock) (t : String) : Option ℚ :=
  (eligible.reverse.find? (fun s => s.ticker = t)).map (fun s => s.get_current_price)

/-- Ticker characters the validator drops as non-canonical
(`t.contains('.') || t.contains('/') || t.contains('^') || t.contains(' ')`). -/
def hasBadChars (t : String) : Bool :=
  t.data.any (fun c => c = '.' ∨ c = '/' ∨ c = '^' ∨ c = ' ')

/-- Portfolio cost at the validator's price map (`unwrap_or(0.0)` for a
missing ticker, as in the reduction loop; the initial total only ever reads
present tickers). -/
def submitCost (eligible : List Stock) (p : List (String × Int)) : ℚ :=
  (p.map (fun e => (price_map_get eligible e.1).getD 0 * (e.2 : ℚ))).sum

/-- Reduction loop of `pre_submit_validate`: starting from the most
expensive position (with index wrap-around), repeatedly drop one share,
removing emptied or impossible (non-positive quantity or price) positions,
until the running total is at or under the effective budget.  `fuel` bounds
the iterations; the wrapper passes one unit per share plus one per position
plus one, which covers every iteration the Rust loop performs. -/
def reduceGo (priceOf : String → ℚ) (eff : ℚ) :
    Nat → List (String × Int) → ℚ → Nat → List (String × Int)
  | 0, cleaned, _, _ => cleaned
  | fuel + 1, cleaned, total, idx =>
    if eff < total ∧ cleaned ≠ [] then
      let idx' := if cleaned.length ≤ idx then 0 else idx
      let e := cleaned.getD idx' ("", 0)
      let price := priceOf e.1
      if 0 < e.2 ∧ 0 < price then
        -- decrement one share; removing the position when the count hits
        -- zero is the same as erasing the entry at `idx'` directly
        if e.2 - 1 = 0 then reduceGo priceOf eff fuel (cleaned.eraseIdx idx') (total - price) idx'
        else reduceGo priceOf eff fuel (cleaned.set idx' (e.1, e.2 - 1)) (total - price) (idx' + 1)
      else reduceGo priceOf eff fuel (cleaned.eraseIdx idx') total idx'
    else cleaned

/-- `pre_submit_validate` from `main.rs`.  `rejected` is the content of the
persisted `rejected_tickers.txt` (a file effect, passed in).  Drops
non-positive quantities and tickers missing from the eligible price map,
previously rejected tickers, and non-canonical tickers; then, if the total
cost exceeds `budget × (1 − SUBMIT_MARGIN)`, reduces share counts price
descending until it does not. -/
def pre_submit_validate (portfolio : List (String × Int)) (eligible : List Stock)
    (rejected : List String) (budget : ℚ) : List (String × Int) :=
  let cleaned₁ := portfolio.filter (fun e => 0 < e.2 ∧ (price_map_get eligible e.1).isSome)
  let cleaned₂ := if rejected ≠ [] then cleaned₁.filter (fun e => ¬ e.1 ∈ rejected)
    else cleaned₁
  let cleaned₃ := cleaned₂.filter (fun e => if hasBadChars e.1 then false else 0 < e.2)
  let total := submitCost eligible cleaned₃
  let effective_budget := budget * (1 - SUBMIT_MARGIN)
  if total ≤ effective_budget then cleaned₃
  else
    let sorted := cleaned₃.mergeSort (fun a b =>
      (price_map_get eligible b.1).getD 0 ≤ (price_map_get eligible a.1).getD 0)
    reduceGo (fun t => (price_map_get eligible t).getD 0) effective_budget
      (sharesNat sorted + sorted.length + 1) sorted total 0

/-- Per-cycle control outcome of the `main` loop body. -/
inductive CycleControl
  | fatal (msg : String)
  | skip (reason : String)
  | proceed
deriving DecidableEq

/-- Minimum predicted points below which a request is skipped
(`MIN_EXPECTED_POINTS = 20.0`). -/
def MIN_EXPECTED_POINTS : ℚ := 20

/-- Early-exit control flow of one iteration of `main`'s loop, in source
order: a profile parse failure prints and continues (`skip`); an empty
eligible set executes `return Err("No eligible stocks found!")`, which exits
`main` and terminates the process (`fatal`); a surrogate prediction below
threshold continues (`skip`); a zero-value built portfolio continues
(`skip`); otherwise the cycle proceeds to validation and submission.  The
surrogate's prediction and the built portfolio's value are inputs (they are
computed with float transcendentals / the full pipeline). -/
def cycleControl (profileParsed : Bool) (eligible : List Stock)
    (predicted_points portfolio_value : ℚ) : CycleControl :=
  if ¬ profileParsed then .skip "error in profile skipping"
  else if eligible = [] then .fatal "No eligible stocks found!"
  else if predicted_points < MIN_EXPECTED_POINTS then .skip "low_expected_points"
  else if portfolio_value = 0 then .skip "zero_portfolio_value"
  else .proceed

/-- C9: the code contradicts the claim.  When a cycle's eligibility
filtering produces an empty eligible set, `main` does not skip the cycle; it
returns `Err("No eligible stocks found!")`, terminating the process loop.
This theorem evaluates the loop-body control flow at such a cycle: the
outcome is the fatal process-terminating error and not a skip. -/
theorem c9_empty_eligible_terminates_process :
    cycleControl true [] 100 0 = .fatal "No eligible stocks found!" ∧
    ∀ reason : String, cycleControl true [] 100 0 ≠ .skip reason := by
  refine ⟨rfl, fun reason h => ?_⟩
  rw [show cycleControl true [] 100 0 = .fatal "No eligible stocks found!" from rfl] at h
  exact CycleControl.noConfusion h

theorem reduceGo_idx_lt {cleaned : List (String × Int)} (h : cleaned ≠ []) (idx : Nat) :
    (if cleaned.length ≤ idx then 0 else idx) < cleaned.length := by
  have : 0 < cleaned.length := List.length_pos.mpr h
  split <;> omega

theorem reduceGo_entries (priceOf : String → ℚ) (eff : ℚ) :
    ∀ (fuel : Nat) (cleaned : List (String × Int)) (total : ℚ) (idx : Nat),
    (∀ e ∈ cleaned, 1 ≤ e.2) →
    ∀ e ∈ reduceGo priceOf eff fuel cleaned total idx,
      1 ≤ e.2 ∧ ∃ e₀ ∈ cleaned, e₀.1 = e.1 := by
  intro fuel
  induction fuel with
  | zero => intro cleaned total idx hpos e he; exact ⟨hpos e he, e, he, rfl⟩
  | succ fuel ih =>
    intro cleaned total idx hpos e he
    simp only [reduceGo] at he
    by_cases hc : eff < total ∧ cleaned ≠ []
    · rw [if_pos hc] at he
      have hidx : (if cleaned.length ≤ idx then 0 else idx) < cleaned.length :=
        reduceGo_idx_lt hc.2 idx
      set j := if cleaned.length ≤ idx then 0 else idx with hj
      have hgetD : cleaned.getD j ("", 0) = cleaned[j] :=
        List.getD_eq_getElem cleaned ("", 0) hidx
      rw [hgetD] at he
      have hq : 1 ≤ cleaned[j].2 := hpos _ (List.getElem_mem hidx)
      split_ifs at he with h1 h2
      · obtain ⟨hp1, e₀, he₀, heq⟩ := ih _ _ _
          (fun e' he' => hpos e' ((List.eraseIdx_sublist cleaned _).mem he')) e he
        exact ⟨hp1, e₀, (List.eraseIdx_sublist cleaned _).mem he₀, heq⟩
      · obtain ⟨hp1, e₀, he₀, heq⟩ := ih _ _ _ (fun e' he' => by
          rcases List.mem_or_eq_of_mem_set he' with h' | h'
          · exact hpos e' h'
          · rw [h']; simp only; omega) e he
        rcases List.mem_or_eq_of_mem_set he₀ with h' | h'
        · exact ⟨hp1, e₀, h', heq⟩
        · exact ⟨hp1, cleaned[j], List.getElem_mem hidx, by rw [← heq, h']⟩
      · obtain ⟨hp1, e₀, he₀, heq⟩ := ih _ _ _
          (fun e' he' => hpos e' ((List.eraseIdx_sublist cleaned _).mem he')) e he
        exact ⟨hp1, e₀, (List.eraseIdx_sublist cleaned _).mem he₀, heq⟩
    · rw [if_neg hc] at he
      exact ⟨hpos e he, e, he, rfl⟩

theorem reduceGo_cost (priceOf : String → ℚ) (eff : ℚ)
    (hp : ∀ t, 0 ≤ priceOf t) (heff : 0 ≤ eff) :
    ∀ (fuel : Nat) (cleaned : List (String × Int)) (total : ℚ) (idx : Nat),
    (∀ e ∈ cleaned, 1 ≤ e.2) →
    total = (cleaned.map (fun e => priceOf e.1 * (e.2 : ℚ))).sum →
    sharesNat cleaned + cleaned.length < fuel →
    ((reduceGo priceOf eff fuel cleaned total idx).map
      (fun e => priceOf e.1 * (e.2 : ℚ))).sum ≤ eff := by
  intro fuel
  induction fuel with
  | zero => intro cleaned total idx _ _ h; omega
  | succ fuel ih =>
    intro cleaned total idx hpos htot hfuel
    simp only [reduceGo]
    by_cases hc : eff < total ∧ cleaned ≠ []
    · rw [if_pos hc]
      have hidx : (if cleaned.length ≤ idx then 0 else idx) < cleaned.length :=
        reduceGo_idx_lt hc.2 idx
      set j := if cleaned.length ≤ idx then 0 else idx with hj
      have hgetD : cleaned.getD j ("", 0) = cleaned[j] :=
        List.getD_eq_getElem cleaned ("", 0) hidx
      rw [hgetD]
      have hq : 1 ≤ cleaned[j].2 := hpos _ (List.getElem_mem hidx)
      have herase := sum_map_eraseIdx (fun e => priceOf e.1 * (e.2 : ℚ)) cleaned j hidx
      have hshe := sharesNat_eraseIdx cleaned j hidx
      have hlene : (cleaned.eraseIdx j).length = cleaned.length - 1 := by
        rw [List.length_eraseIdx, if_pos hidx]
      split_ifs with h1 h2
      · -- quantity was 1; erase the entry
        have hq1 : cleaned[j].2 = 1 := by omega
        refine ih _ _ _ (fun e' he' => hpos e' ((List.eraseIdx_sublist cleaned _).mem he'))
          ?_ ?_
        · rw [htot, ← herase, hq1]
          push_cast
          ring
        · omega
      · -- decrement the entry in place
        have hset := sum_map_set (fun e => priceOf e.1 * (e.2 : ℚ)) cleaned j
          (cleaned[j].1, cleaned[j].2 - 1) hidx
        have hshs := sharesNat_set cleaned j (cleaned[j].1, cleaned[j].2 - 1) hidx
        refine ih _ _ _ (fun e' he' => by
            rcases List.mem_or_eq_of_mem_set he' with h' | h'
            · exact hpos e' h'
            · rw [h']; simp only; omega)
          ?_ ?_
        · simp only at hset
          rw [htot]
          push_cast at hset ⊢
          linarith
        · simp only at hshs
          rw [List.length_set]
          omega
      · -- impossible position: price must be non-positive, hence zero
        have hp0 : priceOf cleaned[j].1 = 0 := by
          have := hp cleaned[j].1
          rcases not_and_or.mp h1 with h' | h'
          · omega
          · linarith [not_lt.mp h']
        refine ih _ _ _ (fun e' he' => hpos e' ((List.eraseIdx_sublist cleaned _).mem he'))
          ?_ ?_
        · rw [htot, ← herase, hp0]
          ring
        · omega
    · rw [if_neg hc]
      rcases not_and_or.mp hc with h' | h'
      · rw [← htot]; exact not_lt.mp h'
      · rw [not_not.mp h']
        simpa using heff

theorem price_map_get_nonneg (eligible : List Stock)
    (hp : ∀ s ∈ eligible, 0 ≤ s.get_current_price) (t : String) :
    0 ≤ (price_map_get eligible t).getD 0 := by
  rcases h : price_map_get eligible t with _ | v
  · simp
  · simp only [Option.getD_some]
    rw [price_map_get] at h
    rcases hf : eligible.reverse.find? (fun s => s.ticker = t) with _ | s
    · rw [hf] at h; simp at h
    · rw [hf] at h
      simp only [Option.map] at h
      injection h with h
      rw [← h]
      exact hp s (List.mem_reverse.mp (List.mem_of_find?_eq_some hf))

theorem preSubmitTail_spec (eligible : List Stock) (rejected : List String) (budget : ℚ)
    (cleaned₂ : List (String × Int))
    (hmid : ∀ e ∈ cleaned₂, (price_map_get eligible e.1).isSome = true ∧ ¬ e.1 ∈ rejected) :
    (∀ e ∈ (if submitCost eligible (cleaned₂.filter
          (fun e => if hasBadChars e.1 then false else 0 < e.2)) ≤
          budget * (1 - SUBMIT_MARGIN) then
        cleaned₂.filter (fun e => if hasBadChars e.1 then false else 0 < e.2)
      else
        reduceGo (fun t => (price_map_get eligible t).getD 0) (budget * (1 - SUBMIT_MARGIN))
          (sharesNat ((cleaned₂.filter
              (fun e => if hasBadChars e.1 then false else 0 < e.2)).mergeSort (fun a b =>
              (price_map_get eligible b.1).getD 0 ≤ (price_map_get eligible a.1).getD 0)) +
            ((cleaned₂.filter
              (fun e => if hasBadChars e.1 then false else 0 < e.2)).mergeSort (fun a b =>
              (price_map_get eligible b.1).getD 0 ≤
                (price_map_get eligible a.1).getD 0)).length + 1)
          ((cleaned₂.filter
            (fun e => if hasBadChars e.1 then false else 0 < e.2)).mergeSort (fun a b =>
            (price_map_get eligible b.1).getD 0 ≤ (price_map_get eligible a.1).getD 0))
          (submitCost eligible (cleaned₂.filter
            (fun e => if hasBadChars e.1 then false else 0 < e.2))) 0),
      0 < e.2 ∧ (price_map_get eligible e.1).isSome = true ∧ ¬ e.1 ∈ rejected ∧
      hasBadChars e.1 = false) ∧
    (0 ≤ budget → (∀ s ∈ eligible, 0 ≤ s.get_current_price) →
      submitCost eligible (if submitCost eligible (cleaned₂.filter
          (fun e => if hasBadChars e.1 then false else 0 < e.2)) ≤
          budget * (1 - SUBMIT_MARGIN) then
        cleaned₂.filter (fun e => if hasBadChars e.1 then false else 0 < e.2)
      else
        reduceGo (fun t => (price_map_get eligible t).getD 0) (budget * (1 - SUBMIT_MARGIN))
          (sharesNat ((cleaned₂.filter
              (fun e => if hasBadChars e.1 then false else 0 < e.2)).mergeSort (fun a b =>
              (price_map_get eligible b.1).getD 0 ≤ (price_map_get eligible a.1).getD 0)) +
            ((cleaned₂.filter
              (fun e => if hasBadChars e.1 then false else 0 < e.2)).mergeSort (fun a b =>
              (price_map_get eligible b.1).getD 0 ≤
                (price_map_get eligible a.1).getD 0)).length + 1)
          ((cleaned₂.filter
            (fun e => if hasBadChars e.1 then false else 0 < e.2)).mergeSort (fun a b =>
            (price_map_get eligible b.1).getD 0 ≤ (price_map_get eligible a.1).getD 0))
          (submitCost eligible (cleaned₂.filter
            (fun e => if hasBadChars e.1 then false else 0 < e.2))) 0) ≤
        budget * (1 - SUBMIT_MARGIN)) := by
  have hprops : ∀ e ∈ cleaned₂.filter (fun e => if hasBadChars e.1 then false else 0 < e.2),
      0 < e.2 ∧ (price_map_get eligible e.1).isSome = true ∧ ¬ e.1 ∈ rejected ∧
      hasBadChars e.1 = false := by
    intro e he
    have h3 := List.of_mem_filter he
    have he₂ := List.mem_of_mem_filter he
    have hbad : hasBadChars e.1 = false := by
      cases hcase : hasBadChars e.1
      · rfl
      · rw [if_pos hcase] at h3; simp at h3
    rw [if_neg (by rw [hbad]; simp)] at h3
    obtain ⟨hsome, hrej⟩ := hmid e he₂
    exact ⟨by simpa using h3, hsome, hrej, hbad⟩
  constructor
  · intro e he
    split at he
    · exact hprops e he
    · obtain ⟨hq, e₀, he₀, heq⟩ := reduceGo_entries _ _ _ _ _ _
        (fun e' he' => (hprops e' ((List.mergeSort_perm _ _).subset he')).1) e he
      obtain ⟨_, hsome, hrej, hbad⟩ := hprops e₀ ((List.mergeSort_perm _ _).subset he₀)
      exact ⟨by omega, by rw [← heq]; exact hsome, by rw [← heq]; exact hrej,
        by rw [← heq]; exact hbad⟩
  · intro hb hp
    have heff : 0 ≤ budget * (1 - SUBMIT_MARGIN) :=
      mul_nonneg hb (by norm_num [SUBMIT_MARGIN])
    split
    · next h => exact h
    · next h =>
      refine reduceGo_cost _ _ (price_map_get_nonneg eligible hp) heff _ _ _ _
        (fun e' he' => (hprops e' ((List.mergeSort_perm _ _).subset he')).1) ?_ (by omega)
      exact (((List.mergeSort_perm _ _).map
        (fun e : String × Int =>
          (price_map_get eligible e.1).getD 0 * (e.2 : ℚ))).sum_eq).symm

/-- C8 (amended: the cost clause holds for a non-negative budget and
non-negative eligible prices): the validator's output contains only entries
with positive quantity whose tickers are in the eligible price map, are not
in the persisted rejected-ticker set and contain no non-canonical
characters; and — when the budget and the eligible current prices are
non-negative — its total cost at current prices is at most
`budget × (1 − SUBMIT_MARGIN)`. -/
theorem c8_validator_output (portfolio : List (String × Int)) (eligible : List Stock)
    (rejected : List String) (budget : ℚ) :
    (∀ e ∈ pre_submit_validate portfolio eligible rejected budget,
      0 < e.2 ∧ (price_map_get eligible e.1).isSome = true ∧ ¬ e.1 ∈ rejected ∧
      hasBadChars e.1 = false) ∧
    (0 ≤ budget → (∀ s ∈ eligible, 0 ≤ s.get_current_price) →
      submitCost eligible (pre_submit_validate portfolio eligible rejected budget) ≤
        budget * (1 - SUBMIT_MARGIN)) := by
  by_cases hr : rejected = []
  · have hcond : ¬ (rejected ≠ []) := by simp [hr]
    simp only [pre_submit_validate, if_neg hcond]
    refine preSubmitTail_spec eligible rejected budget _ ?_
    intro e he
    have h1 := List.of_mem_filter he
    simp only [decide_eq_true_eq, Bool.and_eq_true] at h1
    exact ⟨by simpa using h1.2, by simp [hr]⟩
  · have hcond : rejected ≠ [] := hr
    simp only [pre_submit_validate, if_pos hcond]
    refine preSubmitTail_spec eligible rejected budget _ ?_
    intro e he
    have h2 := List.of_mem_filter he
    have he₁ := List.mem_of_mem_filter he
    have h1 := List.of_mem_filter he₁
    simp only [decide_eq_true_eq, Bool.and_eq_true] at h1
    exact ⟨by simpa using h1.2, by simpa using h2⟩

/-- Eligible stock priced 5 for the C8 examples. -/
def exStockA5 : Stock :=
  { ticker := "A", price := 5, sectors := [], volatility := 0, name := "",
    market_cap := 0, first_trading_date := none, last_trading_date := none,
    historical_return := none, historical_start_price := none }

/-- Eligible stock with a (pathological) negative current price. -/
def exStockBneg : Stock :=
  { ticker := "B", price := -5, sectors := [], volatility := 0, name := "",
    market_cap := 0, first_trading_date := none, last_trading_date := none,
    historical_return := none, historical_start_price := none }

/-- Eligible stock priced 4 for the C8 counterexample. -/
def exStockC4 : Stock :=
  { ticker := "C", price := 4, sectors := [], volatility := 0, name := "",
    market_cap := 0, first_trading_date := none, last_trading_date := none,
    historical_return := none, historical_start_price := none }

/-- Concrete instantiation of `c8_validator_output` at budget 100 and a
single eligible stock. -/
theorem c8_validator_output_witness :
    (∀ e ∈ pre_submit_validate [("A", 2)] [exStockA5] ["Z"] 100,
      0 < e.2 ∧ (price_map_get [exStockA5] e.1).isSome = true ∧ ¬ e.1 ∈ ["Z"] ∧
      hasBadChars e.1 = false) ∧
    submitCost [exStockA5] (pre_submit_validate [("A", 2)] [exStockA5] ["Z"] 100) ≤
      100 * (1 - SUBMIT_MARGIN) :=
  ⟨(c8_validator_output [("A", 2)] [exStockA5] ["Z"] 100).1,
   (c8_validator_output [("A", 2)] [exStockA5] ["Z"] 100).2 (by norm_num)
     (by
       intro s hs
       rw [List.mem_singleton.mp hs]
       norm_num [exStockA5, Stock.get_current_price])⟩

set_option maxHeartbeats 2000000 in
/-- C8 counterexample to the unconditional cost clause.  With a negative
budget the reduction empties the portfolio yet the empty cost `0` still
exceeds the (negative) margin target; and with a negative eligible price the
incremental running total diverges from the true cost, so the surviving
portfolio's cost exceeds the margin target even though the budget is
positive. -/
theorem c8_counterexample :
    ¬ (submitCost [exStockA5] (pre_submit_validate [("A", 1)] [exStockA5] [] (-10)) ≤
      (-10) * (1 - SUBMIT_MARGIN)) ∧
    ¬ (submitCost [exStockBneg, exStockC4]
        (pre_submit_validate [("B", 1), ("C", 3)] [exStockBneg, exStockC4] [] 2) ≤
      2 * (1 - SUBMIT_MARGIN)) := by
  have hbadA : hasBadChars "A" = false := by decide
  have hbadB : hasBadChars "B" = false := by decide
  have hbadC : hasBadChars "C" = false := by decide
  have hCB : (decide (("C" : String) = "B")) = false := by decide
  have hBB : (decide (("B" : String) = "B")) = true := by decide
  have hCC : (decide (("C" : String) = "C")) = true := by decide
  have hBC : (decide (("B" : String) = "C")) = false := by decide
  have hAA : (decide (("A" : String) = "A")) = true := by decide
  have hpmA : price_map_get [exStockA5] "A" = some 5 := by
    norm_num [price_map_get, List.find?, exStockA5, Stock.get_current_price]
  have hpmB : price_map_get [exStockBneg, exStockC4] "B" = some (-5) := by
    norm_num [price_map_get, List.find?, exStockBneg, exStockC4, hCB, hBB,
      Stock.get_current_price]
  have hpmC : price_map_get [exStockBneg, exStockC4] "C" = some 4 := by
    norm_num [price_map_get, List.find?, exStockBneg, exStockC4, hCC,
      Stock.get_current_price]
  constructor
  · have h1 : pre_submit_validate [("A", 1)] [exStockA5] [] (-10) = [] := by
      norm_num [pre_submit_validate, hpmA, hbadA, submitCost, SUBMIT_MARGIN,
        List.mergeSort, sharesNat, reduceGo]
    rw [h1]
    norm_num [submitCost, SUBMIT_MARGIN]
  · have h2 : pre_submit_validate [("B", 1), ("C", 3)] [exStockBneg, exStockC4] [] 2 =
        [("C", 1)] := by
      norm_num [pre_submit_validate, hpmB, hpmC, hbadB, hbadC, submitCost, SUBMIT_MARGIN,
        List.mergeSort, sharesNat, reduceGo]
      simp
    rw [h2]
    norm_num [submitCost, hpmC, SUBMIT_MARGIN]
